import Mathlib

/-!
Verification of the sourcetools library: a shallow embedding of the
`Source` / `Location` / `Range` position model, the `Metrics`
offset-to-line-column index with its sampled checkpoint map, the
line-ending normalisation utilities, and the diagnostic `Printer`.

Text is modelled as `List Char`; machine exceptions are modelled with
`Except PyError`.  Each definition mirrors the corresponding Python
function in `src/sourcetools`.
-/

set_option maxHeartbeats 1000000

namespace Sourcetools

/-- Python exception kinds raised by the library (utility.py, source.py). -/
inductive PyError where
  | valueError
  | indexError
  | keyError
  | typeError
  | attributeError
  | lineEndingDetectionFailed
deriving DecidableEq, Repr

/-- utility.LineEnding enumeration. -/
inductive LineEnding where
  | DETECT
  | LF
  | CRLF
deriving DecidableEq, Repr

/-- The separator string of a line-ending kind (`LineEnding.LF.value` etc.).
Python gives `DETECT` a non-string sentinel value that is never used as a
separator; we give it the empty string. -/
def LineEnding.value : LineEnding → List Char
  | .LF => ['\n']
  | .CRLF => ['\r', '\n']
  | .DETECT => []

/-- Python substring membership `pat in s` (str.__contains__). -/
def containsSub (s pat : List Char) : Bool :=
  pat.isPrefixOf s ||
    match s with
    | [] => false
    | _ :: rest => containsSub rest pat

/-- Fuel-driven recursion for `pyReplace` (the fuel never runs out when
it starts at the length of the scanned list, since each step consumes at
least one character). -/
def pyReplaceAux : Nat → List Char → List Char → List Char → List Char
  | 0, s, _, _ => s
  | _ + 1, [], _, _ => []
  | fuel + 1, c :: rest, old, new =>
    if old ≠ [] ∧ old.isPrefixOf (c :: rest) then
      new ++ pyReplaceAux fuel ((c :: rest).drop old.length) old new
    else
      c :: pyReplaceAux fuel rest old new

/-- Python `str.replace(old, new)`: left-to-right, non-overlapping
replacement of every occurrence of `old` by `new` (for nonempty `old`,
which is the only way the library calls it). -/
def pyReplace (s old new : List Char) : List Char :=
  pyReplaceAux s.length s old new

/-- utility.detect_line_endings: CRLF if `"\r\n"` occurs anywhere, else LF
if `"\n"` occurs anywhere, else no result. -/
def detect_line_endings (content : List Char) : Option LineEnding :=
  if containsSub content ['\r', '\n'] then some .CRLF
  else if containsSub content ['\n'] then some .LF
  else none

/-- utility.normalise_line_endings with the default target `new = LF`:
returns the content unchanged when `current == new`, otherwise resolves
`DETECT` and replaces the separator, and returns no result when detection
fails. -/
def normalise_line_endings (content : List Char) (current : LineEnding) :
    Option (List Char) :=
  if current = LineEnding.LF then some content
  else
    let cur := if current = LineEnding.DETECT then detect_line_endings content
               else some current
    match cur with
    | none => none
    | some le => some (pyReplace content le.value LineEnding.LF.value)

/-- utility.lower_bound_index's underlying `bisect.bisect_left`.  On a
sorted sequence (the only documented use) `bisect_left` returns the number
of elements comparing strictly less than the probe value; we take that as
the definition, parameterised by the strict order used. -/
def bisect_left (lt : α → α → Bool) (seq : List α) (v : α) : Nat :=
  (seq.filter (fun x => lt x v)).length

/-- utility.lower_bound_index: index of the greatest element strictly
below `v` in a sorted sequence (clamped to 0). -/
def lower_bound_index (lt : α → α → Bool) (seq : List α) (v : α) : Nat :=
  let index := bisect_left lt seq v
  if index ≠ 0 then index - 1 else 0

/-- source.LineCol: a 1-based line/column pair. -/
structure LineCol where
  line : Nat
  col : Nat
deriving DecidableEq, Repr

/-- The strict lexicographic order on LineCol induced by Python's
`@dataclass(order=True)`. -/
def LineCol.lexLt (a b : LineCol) : Bool :=
  decide (a.line < b.line ∨ (a.line = b.line ∧ a.col < b.col))

/-- One step of the line/column counter in source.count_linecols: a
newline moves to column 1 of the next line, any other character moves one
column right. -/
def nextLinecol (c : Char) (lc : LineCol) : LineCol :=
  if c = '\n' then ⟨lc.line + 1, 1⟩ else ⟨lc.line, lc.col + 1⟩

/-- Run the line/column counter over a character list. -/
def foldLc (s : List Char) (lc : LineCol) : LineCol :=
  s.foldl (fun lc c => nextLinecol c lc) lc

/-- The list of (offset, linecol) pairs yielded while scanning `s`,
starting at offset `i` in state `lc` (the loop body of
source.count_linecols). -/
def countFrom : List Char → Nat → LineCol → List (Nat × LineCol)
  | [], _, _ => []
  | c :: cs, i, lc => (i, lc) :: countFrom cs (i + 1) (nextLinecol c lc)

/-- source.count_linecols(source, offset, linecol): yields
(offset, LineCol) for each character of `source.content[offset:]`. -/
def count_linecols (text : List Char) (offset : Nat) (linecol : LineCol) :
    List (Nat × LineCol) :=
  countFrom (text.drop offset) offset linecol

/-- Ground-truth line/column of offset `o` in `text` (the state of the
counter after consuming the first `o` characters). -/
def trueLinecol (text : List Char) (o : Nat) : LineCol :=
  foldLc (text.take o) ⟨1, 1⟩

/-- source.Metrics._make_linecol_counts: the per-line column-count table.
For every character scan position whose character is a newline, record
(line, col) of that newline.  Python stores this in an insertion-ordered
dict; since the recorded lines strictly increase, an association list in
scan order is an exact model. -/
def make_linecol_counts (text : List Char) : List (Nat × Nat) :=
  (count_linecols text 0 ⟨1, 1⟩).filterMap fun p =>
    if text[p.1]? = some '\n' then some (p.2.line, p.2.col) else none

/-- source._LineColMap's data: sampled offsets and their linecols. -/
structure LineColMap where
  offsets : List Nat
  linecols : List LineCol
deriving DecidableEq, Repr

/-- source._LineColMap._make_map: offsets are `range(0, len(text),
max_search)` and linecols keeps the linecol of every scanned character
whose offset is in that list. -/
def make_map (text : List Char) (max_search : Nat) : LineColMap :=
  let offsets := List.range' 0 ((text.length + max_search - 1) / max_search) max_search
  let linecols := (count_linecols text 0 ⟨1, 1⟩).filterMap fun p =>
    if p.1 ∈ offsets then some p.2 else none
  ⟨offsets, linecols⟩

/-- source._LineColMap.get_linecol: exact checkpoint hit, else linear scan
from the greatest checkpoint at or below the offset.  `_get` raises
IndexError when the checkpoint lists are empty; a scan that never reaches
the offset returns Python `None`, modelled as `ok none`. -/
def LineColMap.get_linecol (m : LineColMap) (text : List Char) (offset : Nat) :
    Except PyError (Option LineCol) :=
  if offset ∈ m.offsets then
    match m.linecols[m.offsets.indexOf offset]? with
    | some lc => .ok (some lc)
    | none => .error .indexError
  else
    let index := lower_bound_index (fun a b => decide (a < b)) m.offsets offset
    match m.offsets[index]?, m.linecols[index]? with
    | some lb_offset, some lb_linecol =>
      match (count_linecols text lb_offset lb_linecol).find?
          (fun p => p.1 == offset) with
      | some p => .ok (some p.2)
      | none => .ok none
    | _, _ => .error .indexError

/-- source._LineColMap.get_offset: the mirror image of
`LineColMap.get_linecol`, searching by linecol in lexicographic order. -/
def LineColMap.get_offset (m : LineColMap) (text : List Char) (linecol : LineCol) :
    Except PyError (Option Nat) :=
  if linecol ∈ m.linecols then
    match m.offsets[m.linecols.indexOf linecol]? with
    | some o => .ok (some o)
    | none => .error .indexError
  else
    let index := lower_bound_index LineCol.lexLt m.linecols linecol
    match m.offsets[index]?, m.linecols[index]? with
    | some lb_offset, some lb_linecol =>
      match (count_linecols text lb_offset lb_linecol).find?
          (fun p => p.2 == linecol) with
      | some p => .ok (some p.1)
      | none => .ok none
    | _, _ => .error .indexError

/-- source.Metrics: the source text with its derived index structures. -/
structure Metrics where
  text : List Char
  map : LineColMap
  counts : List (Nat × Nat)
deriving DecidableEq, Repr

/-- source.Metrics.__init__ (max_search defaults to 128 and `Source`
always constructs Metrics with the default). -/
def mkMetrics (text : List Char) (max_search : Nat) : Metrics :=
  ⟨text, make_map text max_search, make_linecol_counts text⟩

/-- source.Metrics.valid_offset: `0 <= offset <= len(source)`. -/
def Metrics.valid_offset (M : Metrics) (offset : Nat) : Bool :=
  decide (offset ≤ M.text.length)

/-- source.Metrics.line_count: the size of the column-count table. -/
def Metrics.line_count (M : Metrics) : Nat :=
  M.counts.length

/-- source.Metrics.valid_line: `1 <= line <= line_count`. -/
def Metrics.valid_line (M : Metrics) (line : Nat) : Bool :=
  decide (1 ≤ line ∧ line ≤ M.line_count)

/-- source.Metrics.valid_linecol: the line is a key of the column-count
table and `0 < col <= counts[line]`. -/
def Metrics.valid_linecol (M : Metrics) (linecol : LineCol) : Bool :=
  match M.counts.lookup linecol.line with
  | some c => decide (0 < linecol.col ∧ linecol.col ≤ c)
  | none => false

/-- source.Metrics.get_linecol: validates the offset, special-cases the
end-of-source offset via the LAST entry of the column-count table (an
unguarded `[-1]`, IndexError when the table is empty), otherwise defers to
the checkpoint map. -/
def Metrics.get_linecol (M : Metrics) (offset : Nat) :
    Except PyError (Option LineCol) :=
  if ¬ M.valid_offset offset then .error .valueError
  else if offset = M.text.length then
    match M.counts.getLast? with
    | some p => .ok (some ⟨p.1, p.2⟩)
    | none => .error .indexError
  else
    M.map.get_linecol M.text offset

/-- source.Metrics.get_offset: validates the linecol then defers to the
checkpoint map. -/
def Metrics.get_offset (M : Metrics) (linecol : LineCol) :
    Except PyError (Option Nat) :=
  if ¬ M.valid_linecol linecol then .error .valueError
  else M.map.get_offset M.text linecol

/-- source.Metrics.get_line_start_offset: column 1 of the given line. -/
def Metrics.get_line_start_offset (M : Metrics) (line : Nat) :
    Except PyError (Option Nat) :=
  if ¬ M.valid_line line then .error .valueError
  else M.get_offset ⟨line, 1⟩

/-- source.Metrics.get_line_end_offset: the line's last recorded column
(`counts[line]`, KeyError if absent — unreachable behind valid_line). -/
def Metrics.get_line_end_offset (M : Metrics) (line : Nat) :
    Except PyError (Option Nat) :=
  if ¬ M.valid_line line then .error .valueError
  else
    match M.counts.lookup line with
    | none => .error .keyError
    | some c => M.get_offset ⟨line, c⟩

/-- source.Source: name, LF-normalised content and line-ending mode.
Equality/hash use (name, content); the metrics object is derived. -/
structure Source where
  name : String
  content : List Char
  line_ending : LineEnding
deriving DecidableEq, Repr

/-- source.Source.__init__ for text input: normalise the line endings
(raising LineEndingDetectionFailed when DETECT finds no newline) and store
the result. -/
def mkSource (content : List Char) (name : String) (line_ending : LineEnding) :
    Except PyError Source :=
  match normalise_line_endings content line_ending with
  | none => .error .lineEndingDetectionFailed
  | some c => .ok ⟨name, c, line_ending⟩

/-- source.Source.metrics (built in `__init__` with default max_search). -/
def Source.metrics (s : Source) : Metrics :=
  mkMetrics s.content 128

/-- source.Location: an offset paired with the linecol resolved at
construction (Python stores whatever `Metrics.get_linecol` returned, which
may be `None`). -/
structure Location where
  offset : Nat
  linecol : Option LineCol
deriving DecidableEq, Repr

/-- source.Location.__init__: validates the offset then resolves the
linecol, propagating any exception from `Metrics.get_linecol`. -/
def mkLocation (s : Source) (offset : Nat) : Except PyError Location :=
  if ¬ s.metrics.valid_offset offset then .error .valueError
  else
    match s.metrics.get_linecol offset with
    | .error e => .error e
    | .ok lc => .ok ⟨offset, lc⟩

/-- source.Range: a half-open offset interval within a Source. -/
structure Range where
  src : Source
  begin : Nat
  end_ : Nat
deriving DecidableEq, Repr

/-- source.Range.__init__: both endpoints must be valid offsets with
`begin <= end`. -/
def mkRange (s : Source) (b e : Nat) : Except PyError Range :=
  if s.metrics.valid_offset b ∧ s.metrics.valid_offset e ∧ b ≤ e then
    .ok ⟨s, b, e⟩
  else .error .valueError

/-- source.Range.__lt__: `includes_begin != includes_end`. -/
def Range.lt (self rhs : Range) : Bool :=
  let includes_begin :=
    decide (rhs.begin ≤ self.begin ∧ self.begin < rhs.end_) &&
    decide (self.end_ < rhs.end_)
  let includes_end :=
    decide (rhs.begin < self.begin ∧ self.begin < rhs.end_) &&
    decide (self.end_ ≤ rhs.end_)
  includes_begin != includes_end

/-- source.Range.__contains__ applied to a location's offset:
`begin <= offset < end`. -/
def Range.containsOff (self : Range) (offset : Nat) : Bool :=
  decide (self.begin ≤ offset ∧ offset < self.end_)

/-- The offsets iterated by source.Range.__iter__
(`range(begin, end)`; each yields a `Location`, whose construction
succeeds for every offset below the text length). -/
def Range.offsetsList (self : Range) : List Nat :=
  List.range' self.begin (self.end_ - self.begin)

/-- source.Range.__and__: `None` when no location of `rhs` lies in
`self`, else the sub-range `[max(begins), min(ends))`.  Membership of a
location depends only on its offset, so the iteration is modelled over
offsets. -/
def Range.and_ (self rhs : Range) : Except PyError (Option Range) :=
  if ¬ (rhs.offsetsList.any fun o => self.containsOff o) then .ok none
  else
    (mkRange self.src (max self.begin rhs.begin) (min self.end_ rhs.end_)).map some

/-- source.Range.chars: the text slice `[begin, end)`. -/
def Range.chars (self : Range) : List Char :=
  (self.src.content.drop self.begin).take (self.end_ - self.begin)

/-- source.Range.full_lines: the range from the start offset of the begin
location's line to the end offset of the end location's line.  Both
`locations` are constructed first (left to right), a `None` linecol would
fault on `.line` (AttributeError), and a `None` offset from the metrics
calls would fault inside the Range constructor (TypeError). -/
def Range.full_lines (r : Range) : Except PyError Range :=
  match mkLocation r.src r.begin, mkLocation r.src r.end_ with
  | .ok locB, .ok locE =>
    match locB.linecol, locE.linecol with
    | some lcB, some lcE =>
      match r.src.metrics.get_line_start_offset lcB.line,
            r.src.metrics.get_line_end_offset lcE.line with
      | .ok (some s0), .ok (some e0) => mkRange r.src s0 e0
      | .ok none, _ => .error .typeError
      | _, .ok none => .error .typeError
      | .error e, _ => .error e
      | _, .error e => .error e
    | _, _ => .error .attributeError
  | .error e, _ => .error e
  | _, .error e => .error e

/-- source.Range.line_numbers:
`range(locations.begin.line, locations.end.line + 1)`. -/
def Range.line_numbers (r : Range) : Except PyError (List Nat) :=
  match mkLocation r.src r.begin, mkLocation r.src r.end_ with
  | .ok locB, .ok locE =>
    match locB.linecol, locE.linecol with
    | some lcB, some lcE => .ok (List.range' lcB.line (lcE.line + 1 - lcB.line))
    | _, _ => .error .attributeError
  | .error e, _ => .error e
  | _, .error e => .error e

/-- The loop of source.Range.each_line over the remaining offsets, with
the pending line-start accumulator. -/
def each_line_aux (src : Source) (endOff : Nat) :
    List Nat → Option Nat → List Range
  | [], some b => [⟨src, b, endOff⟩]
  | [], none => []
  | o :: rest, acc =>
    let b := acc.getD o
    if src.content[o]? = some '\n' then
      ⟨src, b, o⟩ :: each_line_aux src endOff rest none
    else
      each_line_aux src endOff rest (some b)

/-- source.Range.each_line: split the range at its newline locations into
`Line` ranges (the terminating newline is not part of any yielded line). -/
def Range.each_line (r : Range) : List Range :=
  each_line_aux r.src r.end_ r.offsetsList none

/-- source.Range.__str__: `"<name> bl:bc-el:ec"` from the two boundary
locations. -/
def Range.toStr (r : Range) : Except PyError String :=
  match mkLocation r.src r.begin, mkLocation r.src r.end_ with
  | .ok locB, .ok locE =>
    match locB.linecol, locE.linecol with
    | some b, some e =>
      .ok (r.src.name ++ " " ++ toString b.line ++ ":" ++ toString b.col ++
           "-" ++ toString e.line ++ ":" ++ toString e.col)
    | _, _ => .error .attributeError
  | .error e, _ => .error e
  | _, .error e => .error e

/-- diagnostics.AnnotKind (Python AnnotationKind): severity of a message. -/
inductive AnnotKind where
  | NOTE
  | WARN
  | ERROR
  | FATAL
deriving DecidableEq, Repr

/-- The enum member's `.name` attribute. -/
def AnnotKind.name : AnnotKind → String
  | .NOTE => "NOTE"
  | .WARN => "WARN"
  | .ERROR => "ERROR"
  | .FATAL => "FATAL"

/-- diagnostics.Annot (Python Annotation): a range with a message and a
severity; `full_lines` is resolved eagerly at construction. -/
structure Annot where
  range_ : Range
  msg : String
  kind : AnnotKind
  fl : Range
deriving DecidableEq, Repr

/-- The Python Annotation constructor (which can propagate an exception
from `range_.full_lines()`). -/
def mkAnnot (r : Range) (m : String) (k : AnnotKind) : Except PyError Annot :=
  (r.full_lines).map fun f => ⟨r, m, k, f⟩

/-- display.PrintOpts with its default field values. -/
structure PrintOpts where
  source_indent_left : Nat := 4
  source_show_line_nums : Bool := true
  source_show_gutter : Bool := true
  source_gutter_char : String := "|"
  source_margin : Nat := 1
  source_show_indicator : Bool := true
  source_indicate_leading_whitespace : Bool := false
  source_indicate_char : String := "^"
  show_header : Bool := true
  show_source : Bool := true
  newline_after_header : Bool := true
deriving Repr

/-- Python `str.rjust(width)` with the default space fill. -/
def pyRjust (s : String) (w : Nat) : String :=
  String.mk (List.replicate (w - s.length) ' ') ++ s

/-- Python string repetition `s * n`. -/
def pyRepeat (s : String) (n : Nat) : String :=
  String.join (List.replicate n s)

/-- Python `max` over a nonempty list (the only way the library calls
it). -/
def pyMax (l : List Nat) : Nat :=
  l.foldl Nat.max 0

/-- Fuel-driven helper for `intLog10` (structural recursion so that the
kernel can evaluate it). -/
def intLog10Aux : Nat → Nat → Nat
  | 0, _ => 0
  | fuel + 1, n => if n < 10 then 0 else intLog10Aux fuel (n / 10) + 1

/-- Python `int(log10(n))` for positive `n`: one less than the decimal
digit count. -/
def intLog10 (n : Nat) : Nat :=
  intLog10Aux n n

/-- Python `str.isspace` restricted to single ASCII characters (the only
characters exercised here). -/
def pyIsSpace (c : Char) : Bool :=
  c = ' ' || c = '\t' || c = '\n' || c = '\r' || c = '\x0b' || c = '\x0c'

/-- A Line is a Range whose `line_number` is the line of its begin
location. -/
def Line.line_number (line : Range) : Except PyError Nat :=
  match mkLocation line.src line.begin with
  | .ok loc =>
    match loc.linecol with
    | some lc => .ok lc.line
    | none => .error .attributeError
  | .error e => .error e

/-- display.Printer.print_header: severity name, parenthesised range and
message, joined by single spaces. -/
def print_header (a : Annot) : Except PyError String := do
  let rs ← a.range_.toStr
  .ok (String.intercalate " " [a.kind.name, "(" ++ rs ++ "):", a.msg])

/-- display.Printer.print_source_line: indent, right-justified line
number, gutter, margin and the line's characters. -/
def print_source_line (opts : PrintOpts) (line : Range) (w : Nat) :
    Except PyError String := do
  let n ← Line.line_number line
  let b1 := String.mk (List.replicate opts.source_indent_left ' ')
  let b2 := if opts.source_show_line_nums then pyRjust (toString n) w else ""
  let b3 := if opts.source_show_gutter then " " ++ opts.source_gutter_char else ""
  let b4 := String.mk (List.replicate opts.source_margin ' ')
  .ok (b1 ++ b2 ++ b3 ++ b4 ++ String.mk line.chars)

/-- display.Printer.print_indicator_line: matching indent/number
gap/gutter/margin, then carets under the indicated sub-range, skipping
leading whitespace unless configured otherwise (`skip_count` stays 0 when
every character is whitespace, since the loop never breaks). -/
def print_indicator_line (opts : PrintOpts) (indicate _line : Range) (w : Nat) :
    String :=
  let b1 := String.mk (List.replicate opts.source_indent_left ' ')
  let b2 := if opts.source_show_line_nums then pyRjust "" w else ""
  let b3 := if opts.source_show_gutter then " " ++ opts.source_gutter_char else ""
  let b4 := String.mk (List.replicate opts.source_margin ' ')
  let skip_count :=
    if ¬ opts.source_indicate_leading_whitespace then
      match indicate.chars.findIdx? (fun ch => ¬ pyIsSpace ch) with
      | some i => i
      | none => 0
    else 0
  let b5 := String.mk (List.replicate skip_count ' ')
  let b6 := pyRepeat opts.source_indicate_char (indicate.end_ - indicate.begin - skip_count)
  b1 ++ b2 ++ b3 ++ b4 ++ b5 ++ b6

/-- display.Printer.print_source: line-number width from the maximum
spanned line number, then for each full line of the range emit the source
line and, when the line intersects the original range, an indicator
line. -/
def print_source (opts : PrintOpts) (a : Annot) : Except PyError String := do
  let lnums ← a.range_.line_numbers
  let width := intLog10 (pyMax lnums) + 1
  let fl ← a.range_.full_lines
  let parts ← fl.each_line.mapM fun line => do
    let sl ← print_source_line opts line width
    match ← line.and_ a.range_ with
    | some ind => pure [sl, print_indicator_line opts ind line width]
    | none => pure [sl]
  .ok (String.intercalate "\n" parts.flatten)

/-- display.Printer.print_annotation for a printer configuration mapping
each severity to its options: header, optional blank, source excerpt,
joined with newlines. -/
def print_annot (printer : AnnotKind → PrintOpts) (a : Annot) :
    Except PyError String := do
  let opts := printer a.kind
  let p1 ← if opts.show_header then (print_header a).map fun h => [h] else .ok []
  let p2 := if opts.newline_after_header then [""] else []
  let p3 ← if opts.show_source then (print_source opts a).map fun s => [s] else .ok []
  .ok (String.intercalate "\n" (p1 ++ p2 ++ p3))

/-- The default Printer: every severity gets default options. -/
def defaultPrinter : AnnotKind → PrintOpts := fun _ => {}

/-! Auxiliary definitions used only to state and prove the theorems. -/

/-- The strict lexicographic order on LineCol as a proposition. -/
def LineCol.Lex (a b : LineCol) : Prop :=
  a.line < b.line ∨ (a.line = b.line ∧ a.col < b.col)

/-- Modelled from the claim wording for the strict range ordering: exactly
one of "A's begin flush with B's begin and A's end strictly inside B" or
"A's end flush with B's end and A's begin strictly inside B", where
"strictly inside" means strictly between B's begin and end. -/
def lt_claim (A B : Range) : Bool :=
  let case1 := decide (A.begin = B.begin ∧ (B.begin < A.end_ ∧ A.end_ < B.end_))
  let case2 := decide (A.end_ = B.end_ ∧ (B.begin < A.begin ∧ A.begin < B.end_))
  case1 != case2

/-- Modelled from the spec claim wording for DETECT: adopt the convention
of the FIRST `"\r\n"` or `"\n"` occurring in the text, in text order. -/
def detect_first_occurrence : List Char → Option LineEnding
  | [] => none
  | '\r' :: '\n' :: _ => some .CRLF
  | '\n' :: _ => some .LF
  | _ :: rest => detect_first_occurrence rest

/-- Every carriage return in the list is immediately followed by a line
feed (i.e. CRs occur only inside CRLF pairs). -/
def crlfOnly : List Char → Bool
  | [] => true
  | [c] => c != '\r'
  | c :: e :: rest2 =>
    if c = '\r' then decide (e = '\n') && crlfOnly rest2
    else crlfOnly (e :: rest2)

/-- Reference recursion for the column-count table: scan the characters
with a running (line, col) counter, emitting (line, col) at each
newline. -/
def countsSpec : List Char → Nat → Nat → List (Nat × Nat)
  | [], _, _ => []
  | c :: rest, line, col =>
    if c = '\n' then (line, col) :: countsSpec rest (line + 1) 1
    else countsSpec rest line (col + 1)

/-- The position of the first newline at or after offset `o` (equal to
the text length when there is none). -/
def firstNlFrom (text : List Char) (o : Nat) : Nat :=
  o + (text.drop o).findIdx (fun c => c == '\n')

/-! ## Concrete scenario claims -/

/-- C2: for the Source built from `"abc\ndef\nghi"` the claimed line count
of 3 is wrong: only newline-terminated lines are recorded in the
column-count table, so `line_count` is 2. -/
theorem C2_line_count_cx :
    mkSource ("abc\ndef\nghi".toList) "<none>" .LF =
      .ok ⟨"<none>", "abc\ndef\nghi".toList, .LF⟩ ∧
    (Source.metrics ⟨"<none>", "abc\ndef\nghi".toList, .LF⟩).line_count = 2 ∧
    (2 : Nat) ≠ 3 := by
  refine ⟨rfl, rfl, by decide⟩

/-- C2 (amended): the Source built from `"abc\ndef\nghi"` has line_count 2
(the unterminated final line is not recorded), `get_linecol(4) = (2,1)`,
`get_offset((2,1)) = 4` and `get_line_end_offset(1) = 3`. -/
theorem C2_scenario :
    mkSource ("abc\ndef\nghi".toList) "<none>" .LF =
      .ok ⟨"<none>", "abc\ndef\nghi".toList, .LF⟩ ∧
    (Source.metrics ⟨"<none>", "abc\ndef\nghi".toList, .LF⟩).line_count = 2 ∧
    (Source.metrics ⟨"<none>", "abc\ndef\nghi".toList, .LF⟩).get_linecol 4 =
      .ok (some ⟨2, 1⟩) ∧
    (Source.metrics ⟨"<none>", "abc\ndef\nghi".toList, .LF⟩).get_offset ⟨2, 1⟩ =
      .ok (some 4) ∧
    (Source.metrics ⟨"<none>", "abc\ndef\nghi".toList, .LF⟩).get_line_end_offset 1 =
      .ok (some 3) :=
  ⟨rfl, rfl, rfl, rfl, rfl⟩

/-- C10: Source construction from the empty text with mode LF succeeds,
line_count is 0, offset 0 is the only offset accepted by valid_offset, and
yet `Metrics.get_linecol 0` — and hence `Location(source, 0)` — fails with
an unguarded IndexError (the `[-1]` on the empty column-count table)
instead of a line-column or a range error. -/
theorem C10_empty_source :
    mkSource ([] : List Char) "<none>" .LF = .ok ⟨"<none>", [], .LF⟩ ∧
    (Source.metrics ⟨"<none>", [], .LF⟩).line_count = 0 ∧
    (Source.metrics ⟨"<none>", [], .LF⟩).valid_offset 0 = true ∧
    (Source.metrics ⟨"<none>", [], .LF⟩).valid_offset 1 = false ∧
    (Source.metrics ⟨"<none>", [], .LF⟩).get_linecol 0 = .error .indexError ∧
    mkLocation ⟨"<none>", [], .LF⟩ 0 = .error .indexError :=
  ⟨rfl, rfl, rfl, rfl, rfl, rfl⟩

/-- C7: the header produced for the ERROR annotation over Range(src,4,7)
with message "bad thing" is `"ERROR (<none> 2:1-2:4): bad thing"` — the
parts are joined with spaces — so it does not contain the claimed
`"ERROR(<none> 2:1-2:4): bad thing"`. -/
theorem C7_header_cx :
    (mkAnnot ⟨⟨"<none>", "abc\ndef\nghi".toList, .LF⟩, 4, 7⟩ "bad thing"
        .ERROR).bind print_header =
      .ok "ERROR (<none> 2:1-2:4): bad thing" ∧
    containsSub ("ERROR (<none> 2:1-2:4): bad thing".toList)
      ("ERROR(<none> 2:1-2:4): bad thing".toList) = false := by
  refine ⟨rfl, by decide⟩

/-- C7 (amended): with default print options the rendering of the ERROR
annotation over Range(src,4,7) with message "bad thing" consists of the
header `"ERROR (<none> 2:1-2:4): bad thing"` (severity and parenthesised
range joined by a space), a blank line, exactly one source line
`"    2 | def"` and exactly one indicator line `"      | ^^^"`. -/
theorem C7_printer_scenario :
    mkSource ("abc\ndef\nghi".toList) "<none>" .LF =
      .ok ⟨"<none>", "abc\ndef\nghi".toList, .LF⟩ ∧
    (mkAnnot ⟨⟨"<none>", "abc\ndef\nghi".toList, .LF⟩, 4, 7⟩ "bad thing"
        .ERROR).bind (print_annot defaultPrinter) =
      .ok "ERROR (<none> 2:1-2:4): bad thing\n\n    2 | def\n      | ^^^" ∧
    (mkAnnot ⟨⟨"<none>", "abc\ndef\nghi".toList, .LF⟩, 4, 7⟩ "bad thing"
        .ERROR).bind (print_source {}) =
      .ok "    2 | def\n      | ^^^" ∧
    containsSub ("ERROR (<none> 2:1-2:4): bad thing".toList)
      ("2:1-2:4): bad thing".toList) = true := by
  refine ⟨rfl, rfl, rfl, by decide⟩

/-! ## Range ordering (C5) and intersection (C6) -/

/-- C5: the claimed characterisation (with "strictly inside" read
strictly) fails for an empty range flush with B's begin: the code orders
`[0,0)` before `[0,1)` although `A.end = 0` is not strictly inside B. -/
theorem C5_lt_cx :
    mkRange ⟨"<none>", "a\n".toList, .LF⟩ 0 0 =
      .ok ⟨⟨"<none>", "a\n".toList, .LF⟩, 0, 0⟩ ∧
    mkRange ⟨"<none>", "a\n".toList, .LF⟩ 0 1 =
      .ok ⟨⟨"<none>", "a\n".toList, .LF⟩, 0, 1⟩ ∧
    Range.lt ⟨⟨"<none>", "a\n".toList, .LF⟩, 0, 0⟩
      ⟨⟨"<none>", "a\n".toList, .LF⟩, 0, 1⟩ = true ∧
    lt_claim ⟨⟨"<none>", "a\n".toList, .LF⟩, 0, 0⟩
      ⟨⟨"<none>", "a\n".toList, .LF⟩, 0, 1⟩ = false := by
  refine ⟨rfl, rfl, by decide, by decide⟩

/-- C5 (amended): for valid ranges over one source, `A < B` holds iff
exactly one of {A's begin flush with B's begin and A's end strictly
before B's end} or {A's end flush with B's end and A's begin strictly
inside B} holds; in particular it is false when A equals B and when A
nests strictly inside B without sharing an edge. -/
theorem C5_lt_characterisation :
    ∀ A B : Range, A.src = B.src →
    A.begin ≤ A.end_ → A.end_ ≤ A.src.content.length →
    B.begin ≤ B.end_ → B.end_ ≤ B.src.content.length →
    (Range.lt A B = true ↔
      ((A.begin = B.begin ∧ A.end_ < B.end_) ∨
       (A.end_ = B.end_ ∧ B.begin < A.begin ∧ A.begin < B.end_))) ∧
    ¬ ((A.begin = B.begin ∧ A.end_ < B.end_) ∧
       (A.end_ = B.end_ ∧ B.begin < A.begin ∧ A.begin < B.end_)) ∧
    (A.begin = B.begin → A.end_ = B.end_ → Range.lt A B = false) ∧
    (B.begin < A.begin → A.end_ < B.end_ → Range.lt A B = false) := by
  intro A B hsrc h1 h2 h3 h4
  have e : Range.lt A B =
      ((decide (B.begin ≤ A.begin ∧ A.begin < B.end_) && decide (A.end_ < B.end_)) !=
       (decide (B.begin < A.begin ∧ A.begin < B.end_) && decide (A.end_ ≤ B.end_))) := rfl
  rw [e]
  by_cases p1 : (B.begin ≤ A.begin ∧ A.begin < B.end_) <;>
    by_cases p2 : (A.end_ < B.end_) <;>
    by_cases p3 : (B.begin < A.begin ∧ A.begin < B.end_) <;>
    by_cases p4 : (A.end_ ≤ B.end_) <;>
    simp [p1, p2, p3, p4] <;> omega

/-- C5 witness: `[0,1) < [0,2)` over the source `"a\n"` instantiates the
characterisation. -/
theorem C5_lt_characterisation_witness :
    ((0 : Nat) ≤ 1 ∧ 1 ≤ ("a\n".toList).length ∧ (0 : Nat) ≤ 2 ∧
      2 ≤ ("a\n".toList).length) ∧
    (Range.lt ⟨⟨"<none>", "a\n".toList, .LF⟩, 0, 1⟩
        ⟨⟨"<none>", "a\n".toList, .LF⟩, 0, 2⟩ = true ↔
      (((0 : Nat) = 0 ∧ (1 : Nat) < 2) ∨
       ((1 : Nat) = 2 ∧ (0 : Nat) < 0 ∧ (0 : Nat) < 2))) :=
  ⟨by decide,
    (C5_lt_characterisation ⟨⟨"<none>", "a\n".toList, .LF⟩, 0, 1⟩
      ⟨⟨"<none>", "a\n".toList, .LF⟩, 0, 2⟩ rfl (by decide) (by decide)
      (by decide) (by decide)).1⟩

/-- C6: for valid ranges over one source, `a & b` is the overlapping
sub-range `[max(begins), min(ends))` when some location of one lies in
the other (equivalently `max(begins) < min(ends)`), an absent result
otherwise, and intersection is symmetric. -/
theorem C6_intersection :
    ∀ a b : Range, a.src = b.src →
    a.begin ≤ a.end_ → a.end_ ≤ a.src.content.length →
    b.begin ≤ b.end_ → b.end_ ≤ b.src.content.length →
    ((max a.begin b.begin < min a.end_ b.end_ →
        a.and_ b = .ok (some ⟨a.src, max a.begin b.begin, min a.end_ b.end_⟩)) ∧
     (¬ max a.begin b.begin < min a.end_ b.end_ → a.and_ b = .ok none) ∧
     a.and_ b = b.and_ a) := by
  intro a b hsrc h1 h2 h3 h4
  have key : ∀ x y : Range,
      ((y.offsetsList.any fun o => x.containsOff o) = true ↔
        max x.begin y.begin < min x.end_ y.end_) := by
    intro x y
    simp only [Range.offsetsList, Range.containsOff, List.any_eq_true,
      List.mem_range'_1, decide_eq_true_eq]
    constructor
    · rintro ⟨o, ⟨ho1, ho2⟩, ho3, ho4⟩; omega
    · intro h; exact ⟨max x.begin y.begin, by omega, by omega⟩
  have handb : ∀ x y : Range, x.src = a.src → y.src = a.src →
      x.begin ≤ x.end_ → x.end_ ≤ a.src.content.length →
      y.begin ≤ y.end_ → y.end_ ≤ a.src.content.length →
      x.and_ y = (if max x.begin y.begin < min x.end_ y.end_ then
        .ok (some ⟨x.src, max x.begin y.begin, min x.end_ y.end_⟩) else .ok none) := by
    intro x y hx hy hx1 hx2 hy1 hy2
    rw [Range.and_]
    by_cases hover : max x.begin y.begin < min x.end_ y.end_
    · rw [if_pos hover, if_neg (by rw [key x y]; exact fun h => h hover)]
      rw [mkRange, if_pos]
      · rfl
      · refine ⟨?_, ?_, by omega⟩
        · simp only [Metrics.valid_offset, Source.metrics, mkMetrics,
            decide_eq_true_eq]
          rw [hx]; omega
        · simp only [Metrics.valid_offset, Source.metrics, mkMetrics,
            decide_eq_true_eq]
          rw [hx]; omega
    · rw [if_neg hover, if_pos]
      intro hc
      exact hover ((key x y).1 hc)
  have e1 := handb a b rfl hsrc.symm h1 h2 h3 (by rw [← hsrc] at h4; exact h4)
  have e2 := handb b a hsrc.symm rfl h3 (by rw [← hsrc] at h4; exact h4) h1 h2
  refine ⟨?_, ?_, ?_⟩
  · intro h; rw [e1, if_pos h]
  · intro h; rw [e1, if_neg h]
  · rw [e1, e2, Nat.max_comm b.begin a.begin, Nat.min_comm b.end_ a.end_, hsrc]

/-- C6 witness: `[0,2) & [1,2)` over the source `"a\n"` is `[1,2)`. -/
theorem C6_intersection_witness :
    ((0 : Nat) ≤ 2 ∧ 2 ≤ ("a\n".toList).length ∧ (1 : Nat) ≤ 2 ∧
      max 0 1 < min 2 2) ∧
    Range.and_ ⟨⟨"<none>", "a\n".toList, .LF⟩, 0, 2⟩
        ⟨⟨"<none>", "a\n".toList, .LF⟩, 1, 2⟩ =
      .ok (some ⟨⟨"<none>", "a\n".toList, .LF⟩, max 0 1, min 2 2⟩) :=
  ⟨by decide,
    (C6_intersection ⟨⟨"<none>", "a\n".toList, .LF⟩, 0, 2⟩
      ⟨⟨"<none>", "a\n".toList, .LF⟩, 1, 2⟩ rfl (by decide) (by decide)
      (by decide) (by decide)).1 (by decide)⟩

/-! ## Line-ending detection and normalisation (C8, C9) -/

theorem containsSub_single (s : List Char) (c : Char) :
    containsSub s [c] = true ↔ c ∈ s := by
  induction s with
  | nil => simp [containsSub]
  | cons d rest ih =>
    rw [containsSub]
    simp only [List.isPrefixOf, Bool.and_true, Bool.or_eq_true, beq_iff_eq, ih,
      List.mem_cons]

theorem containsSub_crlf_mem (s : List Char) :
    containsSub s ['\r', '\n'] = true → '\n' ∈ s := by
  induction s with
  | nil => simp [containsSub]
  | cons d rest ih =>
    rw [containsSub]
    intro h
    rw [Bool.or_eq_true] at h
    rcases h with hp | hc
    · have hpre : ['\r', '\n'] <+: (d :: rest) := by
        rwa [← List.isPrefixOf_iff_prefix]
      exact hpre.sublist.subset (by decide)
    · exact List.mem_cons_of_mem _ (ih hc)

theorem pyReplaceAux_single_id (fuel : Nat) (s : List Char) (c : Char)
    (h : s.length ≤ fuel) : pyReplaceAux fuel s [c] [c] = s := by
  induction fuel generalizing s with
  | zero => rfl
  | succ fuel ih =>
    cases s with
    | nil => rfl
    | cons d rest =>
      rw [pyReplaceAux]
      by_cases hc : c = d
      · rw [if_pos]
        · subst hc
          simp only [List.length_cons] at h
          simp [ih rest (by omega)]
        · subst hc
          simp [List.isPrefixOf]
      · rw [if_neg]
        · simp only [List.length_cons] at h
          rw [ih rest (by omega)]
        · simp only [List.isPrefixOf, Bool.and_true, ne_eq, not_and]
          intro _
          simp [beq_iff_eq, hc]

theorem pyReplace_single_id (s : List Char) (c : Char) :
    pyReplace s [c] [c] = s :=
  pyReplaceAux_single_id s.length s c (Nat.le_refl _)

theorem crlfOnly_replace_no_cr (fuel : Nat) (s : List Char)
    (hf : s.length ≤ fuel) (h : crlfOnly s = true) :
    '\r' ∉ pyReplaceAux fuel s ['\r', '\n'] ['\n'] := by
  induction fuel generalizing s with
  | zero =>
    have : s = [] := List.length_eq_zero.1 (Nat.le_zero.1 hf)
    subst this
    simp [pyReplaceAux]
  | succ fuel ih =>
    cases s with
    | nil => simp [pyReplaceAux]
    | cons d rest =>
      cases rest with
      | nil =>
        rw [crlfOnly] at h
        have hd : d ≠ '\r' := by simpa using h
        rw [pyReplaceAux, if_neg]
        · simp only [List.mem_cons, List.not_mem_nil]
          rintro (hm | hm)
          · exact hd hm.symm
          · cases fuel <;> simp [pyReplaceAux] at hm
        · simp only [List.isPrefixOf, ne_eq, not_and]
          intro _
          simp only [Bool.and_eq_true, beq_iff_eq]
          rintro ⟨h1, _⟩
          exact hd h1.symm
      | cons e rest2 =>
        rw [crlfOnly] at h
        by_cases hd : d = '\r'
        · rw [if_pos hd] at h
          rw [Bool.and_eq_true, decide_eq_true_eq] at h
          obtain ⟨he, h2⟩ := h
          subst hd he
          rw [pyReplaceAux, if_pos (by simp [List.isPrefixOf])]
          simp only [List.length_cons] at hf
          simp only [List.drop_succ_cons, List.drop_zero, List.mem_append]
          rintro (hm | hm)
          · simp at hm
          · exact ih rest2 (by omega) h2 hm
        · rw [if_neg hd] at h
          rw [pyReplaceAux, if_neg]
          · simp only [List.length_cons] at hf
            simp only [List.mem_cons]
            rintro (hm | hm)
            · exact hd hm.symm
            · exact ih (e :: rest2) (by simp; omega) h hm
          · simp only [List.isPrefixOf, ne_eq, not_and]
            intro _
            simp only [Bool.and_eq_true, beq_iff_eq]
            rintro ⟨h1, _⟩
            exact hd h1.symm

theorem crlfOnly_cr_containsSub (s : List Char) (h : crlfOnly s = true)
    (hm : '\r' ∈ s) : containsSub s ['\r', '\n'] = true := by
  induction s with
  | nil => simp at hm
  | cons d rest ih =>
    cases rest with
    | nil =>
      rw [crlfOnly] at h
      have hd : d ≠ '\r' := by simpa using h
      rcases List.mem_cons.1 hm with hm1 | hm2
      · exact absurd hm1.symm hd
      · simp at hm2
    | cons e rest2 =>
      rw [crlfOnly] at h
      rw [containsSub]
      by_cases hd : d = '\r'
      · rw [if_pos hd] at h
        rw [Bool.and_eq_true, decide_eq_true_eq] at h
        obtain ⟨he, _⟩ := h
        subst hd he
        simp [List.isPrefixOf]
      · rw [if_neg hd] at h
        rcases List.mem_cons.1 hm with hm1 | hm2
        · exact absurd hm1.symm hd
        · rw [ih h hm2, Bool.or_true]

/-- C8: detection is not determined by the first newline occurrence: in
`"a\nb\r\nc"` the first occurrence is the bare `"\n"` (so the claim says
LF) but the code adopts CRLF because `"\r\n"` occurs somewhere, as the
normalised content shows. -/
theorem C8_detect_cx :
    detect_first_occurrence ("a\nb\r\nc".toList) = some .LF ∧
    detect_line_endings ("a\nb\r\nc".toList) = some .CRLF ∧
    LineEnding.LF ≠ LineEnding.CRLF ∧
    mkSource ("a\nb\r\nc".toList) "<none>" .DETECT =
      .ok ⟨"<none>", "a\nb\nc".toList, .DETECT⟩ := by
  refine ⟨rfl, by decide, by decide, rfl⟩

/-- C8 (amended): under DETECT the adopted convention is CRLF when
`"\r\n"` occurs anywhere in the text, else LF when `"\n"` occurs
anywhere, and construction fails with the line-ending-detection error iff
no newline exists anywhere in the text. -/
theorem C8_detect :
    ∀ (content : List Char) (name : String),
    ((mkSource content name .DETECT = .error .lineEndingDetectionFailed) ↔
      '\n' ∉ content) ∧
    (containsSub content ['\r', '\n'] = true →
      mkSource content name .DETECT =
        .ok ⟨name, pyReplace content ['\r', '\n'] ['\n'], .DETECT⟩) ∧
    (containsSub content ['\r', '\n'] = false → '\n' ∈ content →
      mkSource content name .DETECT = .ok ⟨name, content, .DETECT⟩) := by
  intro content name
  by_cases h1 : containsSub content ['\r', '\n'] = true
  · have hmem : '\n' ∈ content := containsSub_crlf_mem content h1
    have hok : mkSource content name .DETECT =
        .ok ⟨name, pyReplace content ['\r', '\n'] ['\n'], .DETECT⟩ := by
      simp [mkSource, normalise_line_endings, detect_line_endings, h1,
        LineEnding.value]
    refine ⟨?_, fun _ => hok, fun h2 _ => absurd h1 (by simp [h2])⟩
    rw [hok]
    simp [hmem]
  · by_cases h2 : containsSub content ['\n'] = true
    · have hmem : '\n' ∈ content := (containsSub_single content '\n').1 h2
      have hok : mkSource content name .DETECT = .ok ⟨name, content, .DETECT⟩ := by
        simp [mkSource, normalise_line_endings, detect_line_endings, h1, h2,
          LineEnding.value, pyReplace_single_id]
      refine ⟨?_, fun hc => absurd hc h1, fun _ _ => hok⟩
      rw [hok]
      simp [hmem]
    · have hmem : '\n' ∉ content := fun hc =>
        h2 ((containsSub_single content '\n').2 hc)
      have herr : mkSource content name .DETECT =
          .error .lineEndingDetectionFailed := by
        simp [mkSource, normalise_line_endings, detect_line_endings, h1, h2]
      refine ⟨?_, fun hc => absurd hc h1, fun _ hc => absurd hc hmem⟩
      rw [herr]
      simp [hmem]

/-- C8 witness: DETECT on `"x\r\ny"` adopts CRLF and collapses the pair. -/
theorem C8_detect_witness :
    containsSub ("x\r\ny".toList) ['\r', '\n'] = true ∧
    mkSource ("x\r\ny".toList) "w" .DETECT =
      .ok ⟨"w", pyReplace ("x\r\ny".toList) ['\r', '\n'] ['\n'], .DETECT⟩ :=
  ⟨by decide, (C8_detect ("x\r\ny".toList) "w").2.1 (by decide)⟩

/-- C9: a successfully constructed Source can retain carriage returns:
with mode LF the text `"\r\n"` is stored unchanged. -/
theorem C9_cr_cx :
    mkSource ("\r\n".toList) "<none>" .LF = .ok ⟨"<none>", ['\r', '\n'], .LF⟩ ∧
    '\r' ∈ ['\r', '\n'] := by
  refine ⟨rfl, by decide⟩

/-- C9 (amended): if every carriage return of the input occurs inside a
CRLF pair and, when the mode is LF, the input contains no carriage return
at all, then a successfully constructed Source stores text free of
carriage returns. -/
theorem C9_no_cr :
    ∀ (content : List Char) (name : String) (mode : LineEnding) (src : Source),
    crlfOnly content = true →
    (mode = .LF → '\r' ∉ content) →
    mkSource content name mode = .ok src →
    '\r' ∉ src.content := by
  intro content name mode src hcrlf hlf hok
  cases mode with
  | LF =>
    have : src = ⟨name, content, .LF⟩ := by
      simpa [mkSource, normalise_line_endings] using hok.symm
    subst this
    exact hlf rfl
  | CRLF =>
    have : src = ⟨name, pyReplace content ['\r', '\n'] ['\n'], .CRLF⟩ := by
      simpa [mkSource, normalise_line_endings, LineEnding.value] using hok.symm
    subst this
    exact crlfOnly_replace_no_cr content.length content (Nat.le_refl _) hcrlf
  | DETECT =>
    by_cases h1 : containsSub content ['\r', '\n'] = true
    · have : src = ⟨name, pyReplace content ['\r', '\n'] ['\n'], .DETECT⟩ := by
        simpa [mkSource, normalise_line_endings, detect_line_endings, h1,
          LineEnding.value] using hok.symm
      subst this
      exact crlfOnly_replace_no_cr content.length content (Nat.le_refl _) hcrlf
    · have hnocr : '\r' ∉ content := fun hc =>
        h1 (crlfOnly_cr_containsSub content hcrlf hc)
      by_cases h2 : containsSub content ['\n'] = true
      · have : src = ⟨name, content, .DETECT⟩ := by
          simpa [mkSource, normalise_line_endings, detect_line_endings, h1, h2,
            LineEnding.value, pyReplace_single_id] using hok.symm
        subst this
        exact hnocr
      · exfalso
        have : mkSource content name .DETECT =
            .error .lineEndingDetectionFailed := by
          simp [mkSource, normalise_line_endings, detect_line_endings, h1, h2]
        rw [this] at hok
        exact Except.noConfusion hok

/-- C9 witness: `"a\r\nb"` with mode CRLF is stored as `"a\nb"`, which is
CR-free. -/
theorem C9_no_cr_witness :
    crlfOnly ("a\r\nb".toList) = true ∧
    mkSource ("a\r\nb".toList) "w" .CRLF = .ok ⟨"w", "a\nb".toList, .CRLF⟩ ∧
    '\r' ∉ ("a\nb".toList) :=
  ⟨by decide, rfl,
    C9_no_cr ("a\r\nb".toList) "w" .CRLF ⟨"w", "a\nb".toList, .CRLF⟩
      (by decide) (by decide) rfl⟩

/-! ## Line/column counter infrastructure -/

theorem Lex_irrefl (a : LineCol) : ¬ LineCol.Lex a a := by
  simp [LineCol.Lex]

theorem Lex_trans {a b c : LineCol} (h1 : LineCol.Lex a b) (h2 : LineCol.Lex b c) :
    LineCol.Lex a c := by
  rcases h1 with h1 | ⟨h1, h1c⟩ <;> rcases h2 with h2 | ⟨h2, h2c⟩ <;>
    simp only [LineCol.Lex] <;> omega

theorem Lex_asymm {a b : LineCol} (h : LineCol.Lex a b) : ¬ LineCol.Lex b a := by
  rcases h with h | ⟨h, hc⟩ <;> simp only [LineCol.Lex] <;> omega

theorem Lex_ne {a b : LineCol} (h : LineCol.Lex a b) : a ≠ b := by
  rintro rfl
  exact Lex_irrefl a h

theorem lexLt_iff (a b : LineCol) : LineCol.lexLt a b = true ↔ LineCol.Lex a b := by
  simp [LineCol.lexLt, LineCol.Lex]

theorem Lex_next (c : Char) (lc : LineCol) : LineCol.Lex lc (nextLinecol c lc) := by
  by_cases h : c = '\n' <;> simp [nextLinecol, h, LineCol.Lex]

theorem foldLc_nil (lc : LineCol) : foldLc [] lc = lc := rfl

theorem foldLc_cons (c : Char) (s : List Char) (lc : LineCol) :
    foldLc (c :: s) lc = foldLc s (nextLinecol c lc) := rfl

theorem foldLc_append (s t : List Char) (lc : LineCol) :
    foldLc (s ++ t) lc = foldLc t (foldLc s lc) := by
  simp [foldLc, List.foldl_append]

theorem foldLc_eq_or_lex (s : List Char) (lc : LineCol) :
    foldLc s lc = lc ∨ LineCol.Lex lc (foldLc s lc) := by
  induction s generalizing lc with
  | nil => exact Or.inl rfl
  | cons c rest ih =>
    rw [foldLc_cons]
    rcases ih (nextLinecol c lc) with h | h
    · rw [h]; exact Or.inr (Lex_next c lc)
    · exact Or.inr (Lex_trans (Lex_next c lc) h)

theorem foldLc_lex_of_ne_nil {s : List Char} (h : s ≠ []) (lc : LineCol) :
    LineCol.Lex lc (foldLc s lc) := by
  cases s with
  | nil => exact absurd rfl h
  | cons c rest =>
    rw [foldLc_cons]
    rcases foldLc_eq_or_lex rest (nextLinecol c lc) with h2 | h2
    · rw [h2]; exact Lex_next c lc
    · exact Lex_trans (Lex_next c lc) h2

theorem foldLc_col_pos (s : List Char) (lc : LineCol) (h : 1 ≤ lc.col) :
    1 ≤ (foldLc s lc).col := by
  induction s generalizing lc with
  | nil => exact h
  | cons c rest ih =>
    rw [foldLc_cons]
    refine ih _ ?_
    by_cases hc : c = '\n'
    · simp [nextLinecol, hc]
    · simp only [nextLinecol, if_neg hc]
      omega

theorem foldLc_line_mono (s : List Char) (lc : LineCol) :
    lc.line ≤ (foldLc s lc).line := by
  induction s generalizing lc with
  | nil => exact Nat.le_refl _
  | cons c rest ih =>
    rw [foldLc_cons]
    refine Nat.le_trans ?_ (ih (nextLinecol c lc))
    by_cases hc : c = '\n' <;> simp [nextLinecol, hc]

theorem foldLc_no_newline (s : List Char) (lc : LineCol) (h : '\n' ∉ s) :
    foldLc s lc = ⟨lc.line, lc.col + s.length⟩ := by
  induction s generalizing lc with
  | nil => rfl
  | cons c rest ih =>
    rw [foldLc_cons]
    have hc : c ≠ '\n' := fun hc => h (hc ▸ List.mem_cons_self c rest)
    rw [ih _ (fun hm => h (List.mem_cons_of_mem c hm))]
    simp only [nextLinecol, if_neg hc, List.length_cons]
    refine congrArg (LineCol.mk lc.line) ?_
    omega

theorem trueLinecol_zero (text : List Char) : trueLinecol text 0 = ⟨1, 1⟩ := rfl

theorem trueLinecol_col_pos (text : List Char) (o : Nat) :
    1 ≤ (trueLinecol text o).col :=
  foldLc_col_pos _ _ (by simp)

theorem trueLinecol_line_pos (text : List Char) (o : Nat) :
    1 ≤ (trueLinecol text o).line := by
  have := foldLc_line_mono (text.take o) ⟨1, 1⟩
  simpa [trueLinecol] using this

theorem trueLinecol_succ {text : List Char} {o : Nat} {c : Char}
    (h : text[o]? = some c) :
    trueLinecol text (o + 1) = nextLinecol c (trueLinecol text o) := by
  unfold trueLinecol
  rw [List.take_succ, h, foldLc_append]
  rfl

theorem trueLinecol_of_ge {text : List Char} {o : Nat} (h : text.length ≤ o) :
    trueLinecol text o = trueLinecol text text.length := by
  unfold trueLinecol
  rw [List.take_of_length_le h, List.take_of_length_le (Nat.le_refl _)]

theorem trueLinecol_shift {text : List Char} {a b : Nat} (h : a ≤ b) :
    trueLinecol text b = foldLc ((text.drop a).take (b - a)) (trueLinecol text a) := by
  have h1 : text.take b = text.take a ++ (text.drop a).take (b - a) := by
    conv_lhs => rw [← List.take_append_drop a (List.take b text)]
    congr 1
    · rw [List.take_take]
      congr 1
      omega
    · rw [List.take_drop]
      have h2 : a + (b - a) = b := by omega
      rw [h2]
  unfold trueLinecol
  rw [h1, foldLc_append]

theorem trueLinecol_lex_mono {text : List Char} {a b : Nat}
    (hab : a < b) (hb : b ≤ text.length) :
    LineCol.Lex (trueLinecol text a) (trueLinecol text b) := by
  rw [trueLinecol_shift (Nat.le_of_lt hab)]
  refine foldLc_lex_of_ne_nil ?_ _
  have : ((text.drop a).take (b - a)).length = b - a := by
    rw [List.length_take, List.length_drop]
    omega
  intro hnil
  rw [hnil] at this
  simp at this
  omega

theorem trueLinecol_inj {text : List Char} {a b : Nat}
    (ha : a ≤ text.length) (hb : b ≤ text.length)
    (h : trueLinecol text a = trueLinecol text b) : a = b := by
  rcases Nat.lt_trichotomy a b with hlt | heq | hgt
  · exact absurd (h ▸ trueLinecol_lex_mono hlt hb) (Lex_irrefl _)
  · exact heq
  · exact absurd (h ▸ trueLinecol_lex_mono hgt ha) fun hl => Lex_irrefl _ (h ▸ hl)

theorem countFrom_eq (s : List Char) : ∀ (i : Nat) (lc : LineCol),
    countFrom s i lc =
      (List.range s.length).map fun j => (i + j, foldLc (s.take j) lc) := by
  induction s with
  | nil => intro i lc; rfl
  | cons c rest ih =>
    intro i lc
    rw [countFrom, List.length_cons, List.range_succ_eq_map, List.map_cons,
      List.map_map, ih (i + 1) (nextLinecol c lc)]
    congr 1
    apply List.map_congr_left
    intro j hj
    simp only [Function.comp_apply, List.take_succ_cons, foldLc_cons,
      Prod.mk.injEq]
    exact ⟨by omega, trivial⟩

theorem find_offset (text : List Char) (d : Nat) : ∀ i : Nat, i + d < text.length →
    (count_linecols text i (trueLinecol text i)).find? (fun p => p.1 == i + d) =
      some (i + d, trueLinecol text (i + d)) := by
  induction d with
  | zero =>
    intro i hi
    unfold count_linecols
    rw [List.drop_eq_getElem_cons (by omega : i < text.length), countFrom,
      List.find?_cons_of_pos _ (by simp)]
    simp
  | succ d ih =>
    intro i hi
    unfold count_linecols
    rw [List.drop_eq_getElem_cons (by omega : i < text.length), countFrom,
      List.find?_cons_of_neg _ (by simp)]
    have hstep := trueLinecol_succ
      (List.getElem?_eq_getElem (by omega : i < text.length))
    rw [← hstep]
    have e : i + (d + 1) = (i + 1) + d := by omega
    rw [e]
    exact ih (i + 1) (by omega)

theorem find_linecol (text : List Char) (d : Nat) : ∀ i : Nat, i + d < text.length →
    (count_linecols text i (trueLinecol text i)).find?
        (fun p => p.2 == trueLinecol text (i + d)) =
      some (i + d, trueLinecol text (i + d)) := by
  induction d with
  | zero =>
    intro i hi
    unfold count_linecols
    rw [List.drop_eq_getElem_cons (by omega : i < text.length), countFrom,
      List.find?_cons_of_pos _ (by simp)]
    simp
  | succ d ih =>
    intro i hi
    unfold count_linecols
    have hne : trueLinecol text i ≠ trueLinecol text (i + (d + 1)) :=
      Lex_ne (trueLinecol_lex_mono (by omega) (by omega))
    rw [List.drop_eq_getElem_cons (by omega : i < text.length), countFrom,
      List.find?_cons_of_neg _ (by simpa using hne)]
    have hstep := trueLinecol_succ
      (List.getElem?_eq_getElem (by omega : i < text.length))
    rw [← hstep]
    have e : i + (d + 1) = (i + 1) + d := by omega
    rw [e]
    exact ih (i + 1) (by omega)

theorem filterMap_if {α β : Type} (l : List α) (p : α → Prop) [DecidablePred p]
    (f : α → β) :
    (l.filterMap fun a => if p a then some (f a) else none) =
      (l.filter fun a => decide (p a)).map f := by
  induction l with
  | nil => rfl
  | cons a rest ih =>
    by_cases h : p a
    · simp [List.filterMap_cons, List.filter_cons, h, ih]
    · simp [List.filterMap_cons, List.filter_cons, h, ih]

theorem filter_mem_range (n : Nat) : ∀ (O : List Nat), O.Pairwise (· < ·) →
    (∀ x ∈ O, x < n) → ((List.range n).filter fun j => decide (j ∈ O)) = O := by
  induction n with
  | zero =>
    intro O _ hb
    cases O with
    | nil => rfl
    | cons a t => exact absurd (hb a (by simp)) (by omega)
  | succ n ih =>
    intro O hp hb
    rw [List.range_succ, List.filter_append]
    by_cases hn : n ∈ O
    · have hne : O ≠ [] := by rintro rfl; simp at hn
      have hsplit : O.dropLast ++ [O.getLast hne] = O :=
        List.dropLast_append_getLast hne
      have hlast : O.getLast hne = n := by
        by_contra hne2
        have hmem : n ∈ O.dropLast := by
          rcases List.mem_append.1 (hsplit ▸ hn) with h | h
          · exact h
          · simp at h; exact absurd h (fun he => hne2 he.symm)
        have hp2 := hsplit ▸ hp
        rw [List.pairwise_append] at hp2
        have hlt : n < O.getLast hne :=
          hp2.2.2 n hmem (O.getLast hne) (List.mem_singleton_self _)
        have := hb (O.getLast hne) (List.getLast_mem hne)
        omega
    -- elements of dropLast are below n
      have hp2 := hsplit ▸ hp
      rw [List.pairwise_append] at hp2
      have hdlt : ∀ x ∈ O.dropLast, x < n := by
        intro x hx
        have := hp2.2.2 x hx (O.getLast hne) (List.mem_singleton_self _)
        omega
      have hfilter1 :
          ((List.range n).filter fun j => decide (j ∈ O)) = O.dropLast := by
        rw [List.filter_congr (q := fun j => decide (j ∈ O.dropLast))]
        · exact ih O.dropLast hp2.1 hdlt
        · intro j hj
          rw [List.mem_range] at hj
          simp only [decide_eq_decide]
          constructor
          · intro hjo
            rcases List.mem_append.1 (hsplit ▸ hjo) with h | h
            · exact h
            · simp at h; omega
          · intro hjo
            exact hsplit ▸ List.mem_append.2 (Or.inl hjo)
      rw [hfilter1]
      have hfilter2 : ([n].filter fun j => decide (j ∈ O)) = [n] := by
        simp [List.filter_cons, hn]
      rw [hfilter2, ← hlast, hsplit]
    · have hb2 : ∀ x ∈ O, x < n := by
        intro x hx
        have h1 := hb x hx
        have h2 : x ≠ n := fun he => hn (he ▸ hx)
        omega
      have hfilter2 : ([n].filter fun j => decide (j ∈ O)) = [] := by
        simp [List.filter_cons, hn]
      rw [hfilter2, ih O hp hb2, List.append_nil]

/-! ## Closed forms for the checkpoint map -/

theorem map_offsets (text : List Char) :
    (make_map text 128).offsets =
      List.range' 0 ((text.length + 128 - 1) / 128) 128 := rfl

theorem mem_offsets_iff (text : List Char) (x : Nat) :
    x ∈ (make_map text 128).offsets ↔
      ∃ q, q < (text.length + 128 - 1) / 128 ∧ x = 128 * q := by
  rw [map_offsets, List.mem_range']
  constructor
  · rintro ⟨i, hi, rfl⟩; exact ⟨i, hi, by omega⟩
  · rintro ⟨q, hq, rfl⟩; exact ⟨q, hq, by omega⟩

theorem mem_offsets_lt (text : List Char) (x : Nat)
    (hx : x ∈ (make_map text 128).offsets) : x < text.length := by
  rw [mem_offsets_iff] at hx
  obtain ⟨q, hq, rfl⟩ := hx
  omega

theorem offsets_pairwise (text : List Char) :
    (make_map text 128).offsets.Pairwise (· < ·) := by
  rw [map_offsets]
  exact List.pairwise_lt_range' 0 _ 128 (by omega)

theorem offsets_nodup (text : List Char) :
    (make_map text 128).offsets.Nodup :=
  (offsets_pairwise text).imp Nat.ne_of_lt

theorem map_linecols (text : List Char) :
    (make_map text 128).linecols =
      (make_map text 128).offsets.map (trueLinecol text) := by
  have h1 : (make_map text 128).linecols =
      (count_linecols text 0 ⟨1, 1⟩).filterMap fun p =>
        if p.1 ∈ (make_map text 128).offsets then some p.2 else none := rfl
  rw [h1]
  have h2 : count_linecols text 0 ⟨1, 1⟩ = countFrom text 0 ⟨1, 1⟩ := by
    unfold count_linecols
    rw [List.drop_zero]
  rw [h2, countFrom_eq, List.filterMap_map]
  have h3 : ((fun p : Nat × LineCol =>
        if p.1 ∈ (make_map text 128).offsets then some p.2 else none) ∘
      fun j => (0 + j, foldLc (text.take j) ⟨1, 1⟩)) =
      fun j => if j ∈ (make_map text 128).offsets
        then some (trueLinecol text j) else none := by
    funext j
    simp [Function.comp, trueLinecol]
  rw [h3, filterMap_if, filter_mem_range text.length _ (offsets_pairwise text)
    (mem_offsets_lt text)]

theorem linecols_length (text : List Char) :
    (make_map text 128).linecols.length = (text.length + 128 - 1) / 128 := by
  rw [map_linecols, List.length_map, map_offsets, List.length_range']

theorem offsets_getElem? (text : List Char) (q : Nat)
    (hq : q < (text.length + 128 - 1) / 128) :
    (make_map text 128).offsets[q]? = some (128 * q) := by
  rw [map_offsets, List.getElem?_range' 0 128 hq]
  congr 1
  omega

theorem linecols_getElem? (text : List Char) (q : Nat)
    (hq : q < (text.length + 128 - 1) / 128) :
    (make_map text 128).linecols[q]? = some (trueLinecol text (128 * q)) := by
  rw [map_linecols, List.getElem?_map, offsets_getElem? text q hq, Option.map_some']

theorem linecols_pairwise (text : List Char) :
    (make_map text 128).linecols.Pairwise LineCol.Lex := by
  rw [map_linecols, List.pairwise_map]
  refine (offsets_pairwise text).imp_of_mem fun {a b} ha hb hab => ?_
  exact trueLinecol_lex_mono hab (Nat.le_of_lt (mem_offsets_lt text b hb))

theorem linecols_nodup (text : List Char) :
    (make_map text 128).linecols.Nodup :=
  (linecols_pairwise text).imp Lex_ne

theorem mem_linecols_iff (text : List Char) (o : Nat) (ho : o ≤ text.length) :
    trueLinecol text o ∈ (make_map text 128).linecols ↔
      o ∈ (make_map text 128).offsets := by
  rw [map_linecols, List.mem_map]
  constructor
  · rintro ⟨x, hx, he⟩
    have := trueLinecol_inj (Nat.le_of_lt (mem_offsets_lt text x hx)) ho he
    exact this ▸ hx
  · intro h
    exact ⟨o, h, rfl⟩

theorem offsets_indexOf (text : List Char) (q : Nat)
    (hq : q < (text.length + 128 - 1) / 128) :
    (make_map text 128).offsets.indexOf (128 * q) = q := by
  have hlen : q < (make_map text 128).offsets.length := by
    rw [map_offsets, List.length_range']
    exact hq
  have he : (make_map text 128).offsets[q] = 128 * q := by
    have := offsets_getElem? text q hq
    rwa [List.getElem?_eq_getElem hlen, Option.some_inj] at this
  rw [← he]
  exact List.indexOf_getElem (offsets_nodup text) q hlen

theorem linecols_indexOf (text : List Char) (q : Nat)
    (hq : q < (text.length + 128 - 1) / 128) :
    (make_map text 128).linecols.indexOf (trueLinecol text (128 * q)) = q := by
  have hlen : q < (make_map text 128).linecols.length := by
    rw [linecols_length]
    exact hq
  have he : (make_map text 128).linecols[q] = trueLinecol text (128 * q) := by
    have := linecols_getElem? text q hq
    rwa [List.getElem?_eq_getElem hlen, Option.some_inj] at this
  rw [← he]
  exact List.indexOf_getElem (linecols_nodup text) q hlen

theorem count_lt_range' (o : Nat) : ∀ K : Nat,
    ((List.range' 0 K 128).filter fun x => decide (x < o)).length =
      min K ((o + 127) / 128) := by
  intro K
  induction K with
  | zero => simp
  | succ K ih =>
    rw [List.range'_concat, List.filter_append, List.length_append, ih]
    by_cases h : 0 + 128 * K < o
    · rw [List.filter_cons, if_pos (by simpa using h)]
      simp only [List.filter_nil, List.length_cons, List.length_nil]
      omega
    · rw [List.filter_cons, if_neg (by simpa using h)]
      simp only [List.filter_nil, List.length_nil]
      omega

theorem bisect_offsets (text : List Char) (o : Nat) :
    bisect_left (fun a b => decide (a < b)) (make_map text 128).offsets o =
      min ((text.length + 128 - 1) / 128) ((o + 127) / 128) := by
  rw [bisect_left, map_offsets, count_lt_range']

theorem lexLt_trueLinecol_decide (text : List Char) (x o : Nat)
    (hx : x ≤ text.length) (ho : o ≤ text.length) :
    LineCol.lexLt (trueLinecol text x) (trueLinecol text o) = decide (x < o) := by
  rcases Nat.lt_trichotomy x o with h | h | h
  · have := trueLinecol_lex_mono h ho
    simp only [LineCol.lexLt, LineCol.Lex] at this ⊢
    simp [this, h]
  · subst h
    simp [LineCol.lexLt, LineCol.Lex]
  · have hlex := trueLinecol_lex_mono h hx
    have h2 := Lex_asymm hlex
    simp only [LineCol.lexLt, LineCol.Lex] at h2 ⊢
    rw [decide_eq_decide]
    constructor
    · intro hc; exact absurd hc h2
    · intro hc; omega

theorem bisect_linecols (text : List Char) (o : Nat) (ho : o < text.length) :
    bisect_left LineCol.lexLt (make_map text 128).linecols (trueLinecol text o) =
      min ((text.length + 128 - 1) / 128) ((o + 127) / 128) := by
  rw [bisect_left, map_linecols, List.filter_map, List.length_map]
  have hcong : ∀ x ∈ (make_map text 128).offsets,
      ((fun lc => LineCol.lexLt lc (trueLinecol text o)) ∘ trueLinecol text) x =
        decide (x < o) := by
    intro x hx
    simp only [Function.comp_apply]
    exact lexLt_trueLinecol_decide text x o
      (Nat.le_of_lt (mem_offsets_lt text x hx)) (Nat.le_of_lt ho)
  rw [List.filter_congr hcong, map_offsets, count_lt_range']

/-- The checkpoint map resolves every in-range offset to its true
line/column. -/
theorem map_get_linecol (text : List Char) (o : Nat) (ho : o < text.length) :
    (make_map text 128).get_linecol text o = .ok (some (trueLinecol text o)) := by
  rw [LineColMap.get_linecol]
  by_cases hmem : o ∈ (make_map text 128).offsets
  · rw [if_pos hmem]
    obtain ⟨q, hq, rfl⟩ := (mem_offsets_iff text o).1 hmem
    rw [offsets_indexOf text q hq, linecols_getElem? text q hq]
  · rw [if_neg hmem]
    have hK1 : 1 ≤ (text.length + 128 - 1) / 128 := by omega
    have ho0 : o ≠ 0 := by
      rintro rfl
      exact hmem ((mem_offsets_iff text 0).2 ⟨0, hK1, by omega⟩)
    have hlow : lower_bound_index (fun a b => decide (a < b))
        (make_map text 128).offsets o =
        min ((text.length + 128 - 1) / 128) ((o + 127) / 128) - 1 := by
      rw [lower_bound_index, bisect_offsets text o]
      rw [if_pos (by omega)]
    rw [hlow]
    dsimp only
    have hq : min ((text.length + 128 - 1) / 128) ((o + 127) / 128) - 1 <
        (text.length + 128 - 1) / 128 := by omega
    rw [offsets_getElem? text _ hq, linecols_getElem? text _ hq]
    have hle : 128 * (min ((text.length + 128 - 1) / 128) ((o + 127) / 128) - 1) ≤ o := by
      omega
    have hfind := find_offset text
      (o - 128 * (min ((text.length + 128 - 1) / 128) ((o + 127) / 128) - 1))
      (128 * (min ((text.length + 128 - 1) / 128) ((o + 127) / 128) - 1))
      (by omega)
    rw [Nat.add_sub_cancel' hle] at hfind
    dsimp only
    rw [hfind]

/-- The checkpoint map resolves the true line/column of every in-range
offset back to that offset. -/
theorem map_get_offset (text : List Char) (o : Nat) (ho : o < text.length) :
    (make_map text 128).get_offset text (trueLinecol text o) = .ok (some o) := by
  rw [LineColMap.get_offset]
  by_cases hmem : trueLinecol text o ∈ (make_map text 128).linecols
  · rw [if_pos hmem]
    have hoff : o ∈ (make_map text 128).offsets :=
      (mem_linecols_iff text o (Nat.le_of_lt ho)).1 hmem
    obtain ⟨q, hq, rfl⟩ := (mem_offsets_iff text o).1 hoff
    rw [linecols_indexOf text q hq, offsets_getElem? text q hq]
  · rw [if_neg hmem]
    have hoff : o ∉ (make_map text 128).offsets := fun h =>
      hmem ((mem_linecols_iff text o (Nat.le_of_lt ho)).2 h)
    have hK1 : 1 ≤ (text.length + 128 - 1) / 128 := by omega
    have ho0 : o ≠ 0 := by
      rintro rfl
      exact hoff ((mem_offsets_iff text 0).2 ⟨0, hK1, by omega⟩)
    have hlow : lower_bound_index LineCol.lexLt
        (make_map text 128).linecols (trueLinecol text o) =
        min ((text.length + 128 - 1) / 128) ((o + 127) / 128) - 1 := by
      rw [lower_bound_index, bisect_linecols text o ho]
      rw [if_pos (by omega)]
    rw [hlow]
    dsimp only
    have hq : min ((text.length + 128 - 1) / 128) ((o + 127) / 128) - 1 <
        (text.length + 128 - 1) / 128 := by omega
    rw [offsets_getElem? text _ hq, linecols_getElem? text _ hq]
    have hle : 128 * (min ((text.length + 128 - 1) / 128) ((o + 127) / 128) - 1) ≤ o := by
      omega
    have hfind := find_linecol text
      (o - 128 * (min ((text.length + 128 - 1) / 128) ((o + 127) / 128) - 1))
      (128 * (min ((text.length + 128 - 1) / 128) ((o + 127) / 128) - 1))
      (by omega)
    rw [Nat.add_sub_cancel' hle] at hfind
    dsimp only
    rw [hfind]

/-! ## The column-count table -/

theorem drop_cons_of_getElem? {α : Type} {l : List α} {i : Nat} {c : α}
    (h : l[i]? = some c) : l.drop i = c :: l.drop (i + 1) := by
  have hi : i < l.length := by
    by_contra hni
    rw [List.getElem?_eq_none (by omega)] at h
    cases h
  rw [List.drop_eq_getElem_cons hi]
  congr 1
  exact Option.some_inj.1 ((List.getElem?_eq_getElem hi).symm.trans h)

theorem countsSpec_shift (text : List Char) : ∀ (s : List Char) (i : Nat) (lc : LineCol),
    (∀ j : Nat, s[j]? = text[i + j]?) →
    ((countFrom s i lc).filterMap fun p =>
      if text[p.1]? = some '\n' then some (p.2.line, p.2.col) else none) =
    countsSpec s lc.line lc.col := by
  intro s
  induction s with
  | nil => intro i lc _; rfl
  | cons c rest ih =>
    intro i lc h
    rw [countFrom, List.filterMap_cons]
    have h0 : text[i]? = some c := by
      have := h 0
      simpa using this.symm
    have hshift : ∀ j : Nat, rest[j]? = text[(i + 1) + j]? := by
      intro j
      have := h (j + 1)
      simpa [Nat.add_assoc, Nat.add_comm 1 j] using this
    by_cases hc : c = '\n'
    · subst hc
      rw [if_pos h0, countsSpec, if_pos rfl]
      have hnext : nextLinecol '\n' lc = ⟨lc.line + 1, 1⟩ := by
        simp [nextLinecol]
      rw [hnext, ← ih (i + 1) ⟨lc.line + 1, 1⟩ hshift]
    · rw [if_neg (by rw [h0]; simp [hc]), countsSpec, if_neg hc]
      have hnext : nextLinecol c lc = ⟨lc.line, lc.col + 1⟩ := by
        simp [nextLinecol, hc]
      rw [hnext, ← ih (i + 1) ⟨lc.line, lc.col + 1⟩ hshift]

theorem make_linecol_counts_eq (text : List Char) :
    make_linecol_counts text = countsSpec text 1 1 := by
  unfold make_linecol_counts count_linecols
  rw [List.drop_zero]
  exact countsSpec_shift text text 0 ⟨1, 1⟩ (fun j => by simp)

theorem countsSpec_keys : ∀ (s : List Char) (l c : Nat),
    (countsSpec s l c).map Prod.fst =
      List.range' l (s.countP fun ch => ch == '\n') := by
  intro s
  induction s with
  | nil => intro l c; rfl
  | cons d rest ih =>
    intro l c
    by_cases hd : d = '\n'
    · subst hd
      rw [countsSpec, if_pos rfl, List.countP_cons_of_pos _ _ (by simp),
        List.map_cons, ih (l + 1) 1, List.range'_succ]
    · rw [countsSpec, if_neg hd, List.countP_cons_of_neg _ _ (by simp [hd]),
        ih l (c + 1)]

theorem lookup_isSome_iff {β : Type} (k : Nat) : ∀ (l : List (Nat × β)),
    ((l.lookup k).isSome = true) ↔ k ∈ l.map Prod.fst := by
  intro l
  induction l with
  | nil => simp [List.lookup]
  | cons p rest ih =>
    obtain ⟨a, b⟩ := p
    rw [List.lookup_cons]
    by_cases hk : k = a
    · subst hk
      simp
    · have hba : (k == a) = false := by simp [hk]
      rw [hba]
      simp [ih, hk]

theorem counts_length (text : List Char) :
    (make_linecol_counts text).length = text.countP fun ch => ch == '\n' := by
  have := countsSpec_keys text 1 1
  rw [← make_linecol_counts_eq] at this
  have hlen := congrArg List.length this
  rwa [List.length_map, List.length_range'] at hlen

theorem counts_lookup_isSome_iff (text : List Char) (k : Nat) :
    (((make_linecol_counts text).lookup k).isSome = true) ↔
      1 ≤ k ∧ k ≤ (make_linecol_counts text).length := by
  rw [lookup_isSome_iff, make_linecol_counts_eq, countsSpec_keys,
    List.mem_range'_1, ← make_linecol_counts_eq, counts_length]
  omega

theorem counts_lookup_newline (text : List Char) (d : Nat) : ∀ i : Nat,
    i + d < text.length → text[i + d]? = some '\n' →
    ((countsSpec (text.drop i) (trueLinecol text i).line
        (trueLinecol text i).col).lookup (trueLinecol text (i + d)).line) =
      some (trueLinecol text (i + d)).col := by
  induction d with
  | zero =>
    intro i hi hnl
    simp only [Nat.add_zero] at hi hnl ⊢
    rw [drop_cons_of_getElem? hnl, countsSpec, if_pos rfl, List.lookup_cons_self]
  | succ d ih =>
    intro i hi hnl
    have hi' : i < text.length := by omega
    obtain ⟨c, hc⟩ : ∃ c, text[i]? = some c := by
      rw [List.getElem?_eq_getElem hi']
      exact ⟨_, rfl⟩
    have hstep := trueLinecol_succ hc
    have hidx : (i + 1) + d = i + (d + 1) := by omega
    have hnl' : text[(i + 1) + d]? = some '\n' := by rw [hidx]; exact hnl
    have ihx := ih (i + 1) (by omega) hnl'
    rw [hidx] at ihx
    rw [drop_cons_of_getElem? hc, countsSpec]
    by_cases hcn : c = '\n'
    · subst hcn
      rw [if_pos rfl]
      have hnext : nextLinecol '\n' (trueLinecol text i) =
          ⟨(trueLinecol text i).line + 1, 1⟩ := by simp [nextLinecol]
      have hline1 : (trueLinecol text (i + 1)).line =
          (trueLinecol text i).line + 1 := by rw [hstep, hnext]
      have hcol1 : (trueLinecol text (i + 1)).col = 1 := by rw [hstep, hnext]
      have hmono : (trueLinecol text (i + 1)).line ≤
          (trueLinecol text (i + (d + 1))).line := by
        rw [trueLinecol_shift (show i + 1 ≤ i + (d + 1) by omega)]
        exact foldLc_line_mono _ _
      rw [List.lookup_cons]
      have hne : ((trueLinecol text (i + (d + 1))).line ==
          (trueLinecol text i).line) = false := by
        simp only [beq_eq_false_iff_ne, ne_eq]
        omega
      rw [hne]
      rw [hline1, hcol1] at ihx
      exact ihx
    · rw [if_neg hcn]
      have hnext : nextLinecol c (trueLinecol text i) =
          ⟨(trueLinecol text i).line, (trueLinecol text i).col + 1⟩ := by
        simp [nextLinecol, hcn]
      have hline1 : (trueLinecol text (i + 1)).line =
          (trueLinecol text i).line := by rw [hstep, hnext]
      have hcol1 : (trueLinecol text (i + 1)).col =
          (trueLinecol text i).col + 1 := by rw [hstep, hnext]
      rw [hline1, hcol1] at ihx
      exact ihx

theorem counts_lookup_of_newline (text : List Char) (nl : Nat)
    (h1 : nl < text.length) (h2 : text[nl]? = some '\n') :
    (make_linecol_counts text).lookup (trueLinecol text nl).line =
      some (trueLinecol text nl).col := by
  have := counts_lookup_newline text nl 0 (by omega) (by simpa using h2)
  rw [List.drop_zero] at this
  simp only [Nat.zero_add] at this
  rw [make_linecol_counts_eq]
  exact this

theorem counts_lookup_exists_aux (text : List Char) : ∀ (n : Nat), ∀ (i k v : Nat),
    text.length ≤ i + n →
    ((countsSpec (text.drop i) (trueLinecol text i).line
        (trueLinecol text i).col).lookup k) = some v →
    ∃ o, i ≤ o ∧ o < text.length ∧ text[o]? = some '\n' ∧
      trueLinecol text o = ⟨k, v⟩ := by
  intro n
  induction n with
  | zero =>
    intro i k v hn hl
    rw [List.drop_eq_nil_of_le (by omega)] at hl
    simp [countsSpec, List.lookup] at hl
  | succ n ih =>
    intro i k v hn hl
    by_cases hi : i < text.length
    · obtain ⟨c, hc⟩ : ∃ c, text[i]? = some c := by
        rw [List.getElem?_eq_getElem hi]
        exact ⟨_, rfl⟩
      have hstep := trueLinecol_succ hc
      rw [drop_cons_of_getElem? hc, countsSpec] at hl
      by_cases hcn : c = '\n'
      · subst hcn
        rw [if_pos rfl, List.lookup_cons] at hl
        by_cases hk : k = (trueLinecol text i).line
        · have hbk : (k == (trueLinecol text i).line) = true := by simp [hk]
          rw [hbk] at hl
          have hv : (trueLinecol text i).col = v := Option.some_inj.1 hl
          refine ⟨i, Nat.le_refl _, hi, hc, ?_⟩
          rw [hk, ← hv]
        · have hbk : (k == (trueLinecol text i).line) = false := by simp [hk]
          rw [hbk] at hl
          have hnext : nextLinecol '\n' (trueLinecol text i) =
              ⟨(trueLinecol text i).line + 1, 1⟩ := by simp [nextLinecol]
          have hline1 : (trueLinecol text (i + 1)).line =
              (trueLinecol text i).line + 1 := by rw [hstep, hnext]
          have hcol1 : (trueLinecol text (i + 1)).col = 1 := by rw [hstep, hnext]
          have hl2 : ((countsSpec (text.drop (i + 1))
              (trueLinecol text (i + 1)).line
              (trueLinecol text (i + 1)).col).lookup k) = some v := by
            rw [hline1, hcol1]
            exact hl
          obtain ⟨o, ho1, ho2, ho3, ho4⟩ := ih (i + 1) k v (by omega) hl2
          exact ⟨o, by omega, ho2, ho3, ho4⟩
      · rw [if_neg hcn] at hl
        have hnext : nextLinecol c (trueLinecol text i) =
            ⟨(trueLinecol text i).line, (trueLinecol text i).col + 1⟩ := by
          simp [nextLinecol, hcn]
        have hline1 : (trueLinecol text (i + 1)).line =
            (trueLinecol text i).line := by rw [hstep, hnext]
        have hcol1 : (trueLinecol text (i + 1)).col =
            (trueLinecol text i).col + 1 := by rw [hstep, hnext]
        have hl2 : ((countsSpec (text.drop (i + 1))
            (trueLinecol text (i + 1)).line
            (trueLinecol text (i + 1)).col).lookup k) = some v := by
          rw [hline1, hcol1]
          exact hl
        obtain ⟨o, ho1, ho2, ho3, ho4⟩ := ih (i + 1) k v (by omega) hl2
        exact ⟨o, by omega, ho2, ho3, ho4⟩
    · rw [List.drop_eq_nil_of_le (by omega)] at hl
      simp [countsSpec, List.lookup] at hl

theorem counts_lookup_exists (text : List Char) (k v : Nat)
    (hl : (make_linecol_counts text).lookup k = some v) :
    ∃ o, o < text.length ∧ text[o]? = some '\n' ∧
      trueLinecol text o = ⟨k, v⟩ := by
  have hl2 : ((countsSpec (text.drop 0) (trueLinecol text 0).line
      (trueLinecol text 0).col).lookup k) = some v := by
    rw [List.drop_zero, trueLinecol_zero]
    rw [make_linecol_counts_eq] at hl
    exact hl
  obtain ⟨o, _, h2, h3, h4⟩ :=
    counts_lookup_exists_aux text text.length 0 k v (by omega) hl2
  exact ⟨o, h2, h3, h4⟩

theorem trueLinecol_col_le (text : List Char) : ∀ o : Nat,
    (trueLinecol text o).col ≤ o + 1 := by
  intro o
  induction o with
  | zero => simp [trueLinecol_zero]
  | succ o ih =>
    by_cases ho : o < text.length
    · obtain ⟨c, hc⟩ : ∃ c, text[o]? = some c := by
        rw [List.getElem?_eq_getElem ho]
        exact ⟨_, rfl⟩
      rw [trueLinecol_succ hc]
      by_cases hcn : c = '\n'
      · simp [nextLinecol, hcn]
      · simp only [nextLinecol, if_neg hcn]
        omega
    · rw [trueLinecol_of_ge (show text.length ≤ o + 1 by omega),
        ← trueLinecol_of_ge (show text.length ≤ o by omega)]
      omega

theorem backward_walk (text : List Char) : ∀ (k o' : Nat), o' ≤ text.length →
    k < (trueLinecol text o').col →
    trueLinecol text (o' - k) =
      ⟨(trueLinecol text o').line, (trueLinecol text o').col - k⟩ := by
  intro k
  induction k with
  | zero =>
    intro o' _ _
    rfl
  | succ k ih =>
    intro o' ho hk
    have hcol_le := trueLinecol_col_le text o'
    have ihx := ih o' ho (by omega)
    have hp : o' - (k + 1) < text.length := by omega
    obtain ⟨c, hc⟩ : ∃ c, text[o' - (k + 1)]? = some c := by
      rw [List.getElem?_eq_getElem hp]
      exact ⟨_, rfl⟩
    have hstep := trueLinecol_succ hc
    have he : o' - (k + 1) + 1 = o' - k := by omega
    rw [he] at hstep
    rw [ihx] at hstep
    by_cases hcn : c = '\n'
    · exfalso
      rw [show nextLinecol c (trueLinecol text (o' - (k + 1))) =
          ⟨(trueLinecol text (o' - (k + 1))).line + 1, 1⟩ from by
        simp [nextLinecol, hcn]] at hstep
      rw [LineCol.mk.injEq] at hstep
      obtain ⟨_, h2⟩ := hstep
      omega
    · rw [show nextLinecol c (trueLinecol text (o' - (k + 1))) =
          ⟨(trueLinecol text (o' - (k + 1))).line,
           (trueLinecol text (o' - (k + 1))).col + 1⟩ from by
        simp [nextLinecol, hcn]] at hstep
      rw [LineCol.mk.injEq] at hstep
      obtain ⟨h1, h2⟩ := hstep
      calc trueLinecol text (o' - (k + 1)) =
          ⟨(trueLinecol text (o' - (k + 1))).line,
           (trueLinecol text (o' - (k + 1))).col⟩ := rfl
        _ = ⟨(trueLinecol text o').line, (trueLinecol text o').col - (k + 1)⟩ := by
            rw [← h1]
            congr 1
            omega

theorem firstNl_facts (text : List Char) (o : Nat) (h : '\n' ∈ text.drop o) :
    o ≤ firstNlFrom text o ∧ firstNlFrom text o < text.length ∧
    text[firstNlFrom text o]? = some '\n' ∧
    trueLinecol text (firstNlFrom text o) =
      ⟨(trueLinecol text o).line,
        (trueLinecol text o).col + (firstNlFrom text o - o)⟩ := by
  have hex : ∃ x ∈ text.drop o, (x == '\n') = true := ⟨'\n', h, by simp⟩
  have hidx := List.findIdx_lt_length_of_exists hex
  rw [List.length_drop] at hidx
  have h1 : o ≤ firstNlFrom text o := Nat.le_add_right o _
  have h2 : firstNlFrom text o < text.length := by
    unfold firstNlFrom
    omega
  have hlt : (text.drop o).findIdx (fun c => c == '\n') < (text.drop o).length := by
    rw [List.length_drop]
    omega
  have h3 : text[firstNlFrom text o]? = some '\n' := by
    have hg := List.findIdx_getElem (w := hlt)
    have he : (text.drop o)[(text.drop o).findIdx (fun c => c == '\n')]? =
        some '\n' := by
      rw [List.getElem?_eq_getElem hlt, Option.some_inj]
      exact eq_of_beq hg
    rw [List.getElem?_drop] at he
    exact he
  refine ⟨h1, h2, h3, ?_⟩
  have hseg : '\n' ∉ (text.drop o).take ((text.drop o).findIdx (fun c => c == '\n')) := by
    intro hmem
    obtain ⟨j, hj⟩ := List.mem_iff_getElem?.1 hmem
    obtain ⟨hjl, hje⟩ := List.getElem?_eq_some_iff.1 hj
    rw [List.length_take] at hjl
    have hjlt : j < (text.drop o).findIdx (fun c => c == '\n') := by omega
    have hfalse := List.not_of_lt_findIdx hjlt
    rw [List.getElem?_take_of_lt hjlt] at hj
    have hjlen : j < (text.drop o).length := by
      rw [List.length_drop]
      omega
    rw [List.getElem?_eq_getElem hjlen, Option.some_inj] at hj
    rw [hj] at hfalse
    simp at hfalse
  have hio : firstNlFrom text o - o = (text.drop o).findIdx (fun c => c == '\n') := by
    unfold firstNlFrom
    omega
  rw [trueLinecol_shift h1, hio, foldLc_no_newline _ _ hseg]
  congr 1
  rw [List.length_take, List.length_drop]
  omega

theorem valid_linecol_of_terminated (text : List Char) (o : Nat)
    (h : '\n' ∈ text.drop o) :
    (mkMetrics text 128).valid_linecol (trueLinecol text o) = true := by
  obtain ⟨h1, h2, h3, h4⟩ := firstNl_facts text o h
  have hlook := counts_lookup_of_newline text (firstNlFrom text o) h2 h3
  rw [h4] at hlook
  dsimp only at hlook
  rw [Metrics.valid_linecol]
  dsimp only [mkMetrics]
  rw [hlook]
  simp only [decide_eq_true_eq]
  exact ⟨trueLinecol_col_pos text o, by omega⟩

theorem exists_offset_of_valid_linecol (text : List Char) (lc : LineCol)
    (h : (mkMetrics text 128).valid_linecol lc = true) :
    ∃ o, o < text.length ∧ trueLinecol text o = lc := by
  rw [Metrics.valid_linecol] at h
  dsimp only [mkMetrics] at h
  cases hlp : (make_linecol_counts text).lookup lc.line with
  | none =>
    rw [hlp] at h
    simp at h
  | some cc =>
    rw [hlp] at h
    simp only [decide_eq_true_eq] at h
    obtain ⟨hc1, hc2⟩ := h
    obtain ⟨o', ho1, ho2, ho3⟩ := counts_lookup_exists text lc.line cc hlp
    have hcolnl : (trueLinecol text o').col = cc := by rw [ho3]
    have hlinenl : (trueLinecol text o').line = lc.line := by rw [ho3]
    have hbw := backward_walk text (cc - lc.col) o' (Nat.le_of_lt ho1)
      (by rw [hcolnl]; omega)
    refine ⟨o' - (cc - lc.col), by omega, ?_⟩
    rw [hbw, hlinenl, hcolnl]
    have he : cc - (cc - lc.col) = lc.col := by omega
    rw [he]

/-! ## Metrics-level specifications -/

theorem mem_of_getElem? {α : Type} {l : List α} {i : Nat} {a : α}
    (h : l[i]? = some a) : a ∈ l :=
  List.mem_iff_getElem?.2 ⟨i, h⟩

theorem mem_drop_of_le {text : List Char} {a : Char} {m k : Nat}
    (h : a ∈ text.drop m) (hk : k ≤ m) : a ∈ text.drop k := by
  obtain ⟨j, hj⟩ := List.mem_iff_getElem?.1 h
  rw [List.getElem?_drop] at hj
  refine mem_of_getElem? (i := m + j - k) ?_
  rw [List.getElem?_drop]
  rw [show k + (m + j - k) = m + j by omega]
  exact hj

theorem lt_length_of_mem_drop {text : List Char} {o : Nat}
    (h : '\n' ∈ text.drop o) : o < text.length := by
  by_contra hno
  rw [List.drop_eq_nil_of_le (by omega)] at h
  simp at h

theorem valid_linecol_lookup (text : List Char) (lc : LineCol)
    (h : (mkMetrics text 128).valid_linecol lc = true) :
    ∃ cc, (make_linecol_counts text).lookup lc.line = some cc ∧
      0 < lc.col ∧ lc.col ≤ cc := by
  rw [Metrics.valid_linecol] at h
  dsimp only [mkMetrics] at h
  cases hlp : (make_linecol_counts text).lookup lc.line with
  | none =>
    rw [hlp] at h
    simp at h
  | some cc =>
    rw [hlp] at h
    simp only [decide_eq_true_eq] at h
    exact ⟨cc, rfl, h⟩

theorem metrics_valid_line_of_valid_linecol (text : List Char) (lc : LineCol)
    (h : (mkMetrics text 128).valid_linecol lc = true) :
    (mkMetrics text 128).valid_line lc.line = true := by
  obtain ⟨cc, hlp, _⟩ := valid_linecol_lookup text lc h
  have hsome : ((make_linecol_counts text).lookup lc.line).isSome = true := by
    rw [hlp]
    rfl
  have := (counts_lookup_isSome_iff text lc.line).1 hsome
  rw [Metrics.valid_line]
  simp only [decide_eq_true_eq]
  dsimp only [Metrics.line_count, mkMetrics]
  exact this

theorem metrics_get_linecol (text : List Char) (o : Nat) (ho : o < text.length) :
    (mkMetrics text 128).get_linecol o = .ok (some (trueLinecol text o)) := by
  rw [Metrics.get_linecol]
  rw [if_neg (by simp [Metrics.valid_offset, mkMetrics]; omega),
    if_neg (by dsimp only [mkMetrics]; omega)]
  exact map_get_linecol text o ho

theorem metrics_get_offset (text : List Char) (o : Nat) (ho : o < text.length)
    (hval : (mkMetrics text 128).valid_linecol (trueLinecol text o) = true) :
    (mkMetrics text 128).get_offset (trueLinecol text o) = .ok (some o) := by
  rw [Metrics.get_offset, if_neg (by rw [hval]; simp)]
  exact map_get_offset text o ho

theorem mkLocation_ok (s : Source) (o : Nat) (ho : o < s.content.length) :
    mkLocation s o = .ok ⟨o, some (trueLinecol s.content o)⟩ := by
  have hg : (Source.metrics s).get_linecol o =
      .ok (some (trueLinecol s.content o)) :=
    metrics_get_linecol s.content o ho
  rw [mkLocation, if_neg (by
    simp [Metrics.valid_offset, Source.metrics, mkMetrics]
    omega), hg]

theorem metrics_get_line_start (text : List Char) (b : Nat)
    (h : '\n' ∈ text.drop b) :
    (mkMetrics text 128).get_line_start_offset (trueLinecol text b).line =
      .ok (some (b - ((trueLinecol text b).col - 1))) := by
  have hb : b < text.length := lt_length_of_mem_drop h
  have hval := valid_linecol_of_terminated text b h
  have hcol := trueLinecol_col_pos text b
  have hbw := backward_walk text ((trueLinecol text b).col - 1) b
    (Nat.le_of_lt hb) (by omega)
  have hbw' : trueLinecol text (b - ((trueLinecol text b).col - 1)) =
      ⟨(trueLinecol text b).line, 1⟩ := by
    rw [hbw]
    congr 1
    omega
  have hstart_lt : b - ((trueLinecol text b).col - 1) < text.length := by omega
  have hterm : '\n' ∈ text.drop (b - ((trueLinecol text b).col - 1)) :=
    mem_drop_of_le h (by omega)
  have hvalstart := valid_linecol_of_terminated text
    (b - ((trueLinecol text b).col - 1)) hterm
  rw [hbw'] at hvalstart
  rw [Metrics.get_line_start_offset,
    if_neg (by rw [metrics_valid_line_of_valid_linecol text _ hval]; simp)]
  rw [show (⟨(trueLinecol text b).line, 1⟩ : LineCol) =
      trueLinecol text (b - ((trueLinecol text b).col - 1)) from hbw'.symm]
  exact metrics_get_offset text _ hstart_lt (hbw' ▸ hvalstart)

theorem metrics_get_line_end (text : List Char) (e : Nat)
    (h : '\n' ∈ text.drop e) :
    (mkMetrics text 128).get_line_end_offset (trueLinecol text e).line =
      .ok (some (firstNlFrom text e)) := by
  obtain ⟨h1, h2, h3, h4⟩ := firstNl_facts text e h
  have hval := valid_linecol_of_terminated text e h
  have hlook := counts_lookup_of_newline text (firstNlFrom text e) h2 h3
  have hline : (trueLinecol text (firstNlFrom text e)).line =
      (trueLinecol text e).line := by rw [h4]
  rw [hline] at hlook
  have hnlmem : '\n' ∈ text.drop (firstNlFrom text e) := by
    refine mem_of_getElem? (i := 0) ?_
    rw [List.getElem?_drop, Nat.add_zero]
    exact h3
  have hvalnl := valid_linecol_of_terminated text (firstNlFrom text e) hnlmem
  rw [Metrics.get_line_end_offset,
    if_neg (by rw [metrics_valid_line_of_valid_linecol text _ hval]; simp)]
  dsimp only [mkMetrics]
  rw [hlook]
  dsimp only
  rw [show (⟨(trueLinecol text e).line,
      (trueLinecol text (firstNlFrom text e)).col⟩ : LineCol) =
      trueLinecol text (firstNlFrom text e) from by rw [← hline]]
  exact metrics_get_offset text _ h2 hvalnl

/-! ## Round-trip (C1) -/

/-- C1: the round-trip fails at the end-of-source offset (on `"abc\n"`,
`get_offset(get_linecol(4)) = 3 ≠ 4`) and `get_offset` rejects the
linecols of the unterminated last line (on `"abc\ndef\nghi"`, offset 8 is
valid but `get_offset(get_linecol(8))` raises ValueError). -/
theorem C1_roundtrip_cx :
    (mkMetrics ("abc\n".toList) 128).valid_offset 4 = true ∧
    (mkMetrics ("abc\n".toList) 128).get_linecol 4 = .ok (some ⟨1, 4⟩) ∧
    (mkMetrics ("abc\n".toList) 128).get_offset ⟨1, 4⟩ = .ok (some 3) ∧
    (3 : Nat) ≠ 4 ∧
    (mkMetrics ("abc\ndef\nghi".toList) 128).valid_offset 8 = true ∧
    (mkMetrics ("abc\ndef\nghi".toList) 128).get_linecol 8 = .ok (some ⟨3, 1⟩) ∧
    (mkMetrics ("abc\ndef\nghi".toList) 128).get_offset ⟨3, 1⟩ =
      .error .valueError := by
  refine ⟨by decide, rfl, rfl, by decide, by decide, rfl, rfl⟩

/-- C1 (amended): for every offset whose line is newline-terminated
(equivalently, a newline occurs at or after it — this excludes the
end-of-source offset and the unterminated last line), get_linecol
round-trips through get_offset; and for every linecol accepted by
valid_linecol, get_offset succeeds and get_linecol maps its result back to
the same linecol. -/
theorem C1_roundtrip :
    (∀ (text : List Char) (o : Nat), '\n' ∈ text.drop o →
      (mkMetrics text 128).get_linecol o = .ok (some (trueLinecol text o)) ∧
      (mkMetrics text 128).get_offset (trueLinecol text o) = .ok (some o)) ∧
    (∀ (text : List Char) (lc : LineCol),
      (mkMetrics text 128).valid_linecol lc = true →
      ((mkMetrics text 128).get_offset lc).toOption.join.isSome = true) ∧
    (∀ (text : List Char) (lc : LineCol) (o : Nat),
      (mkMetrics text 128).valid_linecol lc = true →
      (mkMetrics text 128).get_offset lc = .ok (some o) →
      (mkMetrics text 128).get_linecol o = .ok (some lc)) := by
  refine ⟨?_, ?_, ?_⟩
  · intro text o h
    have ho : o < text.length := lt_length_of_mem_drop h
    exact ⟨metrics_get_linecol text o ho,
      metrics_get_offset text o ho (valid_linecol_of_terminated text o h)⟩
  · intro text lc hval
    obtain ⟨o, ho, hlc⟩ := exists_offset_of_valid_linecol text lc hval
    have := metrics_get_offset text o ho (hlc.symm ▸ hval)
    rw [hlc] at this
    rw [this]
    rfl
  · intro text lc o hval hoff
    obtain ⟨o', ho', hlc⟩ := exists_offset_of_valid_linecol text lc hval
    have hok := metrics_get_offset text o' ho' (hlc.symm ▸ hval)
    rw [hlc] at hok
    rw [hok] at hoff
    have : o' = o := by
      have := Option.some_inj.1 (Except.ok.inj hoff)
      exact this
    subst this
    rw [metrics_get_linecol text o' ho', hlc]

/-- C1 witness: on `"ab\n"`, offset 0 round-trips and the valid linecol
(1,2) round-trips back through offset 1. -/
theorem C1_roundtrip_witness :
    ('\n' ∈ ("ab\n".toList).drop 0) ∧
    ((mkMetrics ("ab\n".toList) 128).get_linecol 0 =
      .ok (some (trueLinecol ("ab\n".toList) 0)) ∧
     (mkMetrics ("ab\n".toList) 128).get_offset (trueLinecol ("ab\n".toList) 0) =
      .ok (some 0)) ∧
    ((mkMetrics ("ab\n".toList) 128).valid_linecol ⟨1, 2⟩ = true) ∧
    (((mkMetrics ("ab\n".toList) 128).get_offset ⟨1, 2⟩).toOption.join.isSome =
      true) ∧
    ((mkMetrics ("ab\n".toList) 128).get_linecol 1 = .ok (some ⟨1, 2⟩)) :=
  ⟨by decide, C1_roundtrip.1 ("ab\n".toList) 0 (by decide), by decide,
   C1_roundtrip.2.1 ("ab\n".toList) ⟨1, 2⟩ (by decide),
   C1_roundtrip.2.2 ("ab\n".toList) ⟨1, 2⟩ 1 (by decide) rfl⟩

/-! ## End-of-source special case (C3) -/

theorem countsSpec_nil_of_no_newline : ∀ (s : List Char) (l c : Nat),
    '\n' ∉ s → countsSpec s l c = [] := by
  intro s
  induction s with
  | nil => intro l c _; rfl
  | cons d rest ih =>
    intro l c h
    have hd : d ≠ '\n' := fun he => h (he ▸ List.mem_cons_self d rest)
    rw [countsSpec, if_neg hd]
    exact ih l (c + 1) fun hm => h (List.mem_cons_of_mem d hm)

theorem counts_getLast_aux (text : List Char) (o : Nat)
    (ho : text[o]? = some '\n')
    (hlast : ∀ j, o < j → text[j]? ≠ some '\n') :
    ∀ (d i : Nat), i + d = o →
    (countsSpec (text.drop i) (trueLinecol text i).line
        (trueLinecol text i).col).getLast? =
      some ((trueLinecol text o).line, (trueLinecol text o).col) := by
  intro d
  induction d with
  | zero =>
    intro i h0
    have hio : i = o := by omega
    subst hio
    rw [drop_cons_of_getElem? ho, countsSpec, if_pos rfl]
    have hnone : '\n' ∉ text.drop (i + 1) := by
      intro hm
      obtain ⟨j, hj⟩ := List.mem_iff_getElem?.1 hm
      rw [List.getElem?_drop] at hj
      exact hlast (i + 1 + j) (by omega) hj
    rw [countsSpec_nil_of_no_newline _ _ _ hnone]
    rfl
  | succ d ih =>
    intro i h0
    have hi : i < text.length := by
      have : o < text.length := by
        by_contra hno
        rw [List.getElem?_eq_none (by omega)] at ho
        cases ho
      omega
    obtain ⟨c, hc⟩ : ∃ c, text[i]? = some c := by
      rw [List.getElem?_eq_getElem hi]
      exact ⟨_, rfl⟩
    have hstep := trueLinecol_succ hc
    have ihx := ih (i + 1) (by omega)
    rw [drop_cons_of_getElem? hc, countsSpec]
    by_cases hcn : c = '\n'
    · subst hcn
      rw [if_pos rfl]
      have hnext : nextLinecol '\n' (trueLinecol text i) =
          ⟨(trueLinecol text i).line + 1, 1⟩ := by simp [nextLinecol]
      have hline1 : (trueLinecol text (i + 1)).line =
          (trueLinecol text i).line + 1 := by rw [hstep, hnext]
      have hcol1 : (trueLinecol text (i + 1)).col = 1 := by rw [hstep, hnext]
      rw [hline1, hcol1] at ihx
      cases hr : countsSpec (text.drop (i + 1))
          ((trueLinecol text i).line + 1) 1 with
      | nil =>
        rw [hr] at ihx
        simp at ihx
      | cons r rs =>
        rw [List.getLast?_cons_cons, ← hr]
        exact ihx
    · rw [if_neg hcn]
      have hnext : nextLinecol c (trueLinecol text i) =
          ⟨(trueLinecol text i).line, (trueLinecol text i).col + 1⟩ := by
        simp [nextLinecol, hcn]
      have hline1 : (trueLinecol text (i + 1)).line =
          (trueLinecol text i).line := by rw [hstep, hnext]
      have hcol1 : (trueLinecol text (i + 1)).col =
          (trueLinecol text i).col + 1 := by rw [hstep, hnext]
      rw [hline1, hcol1] at ihx
      exact ihx

theorem counts_getLast (text : List Char) (o : Nat)
    (ho : text[o]? = some '\n')
    (hlast : ∀ j, o < j → text[j]? ≠ some '\n') :
    (make_linecol_counts text).getLast? =
      some ((trueLinecol text o).line, (trueLinecol text o).col) := by
  have := counts_getLast_aux text o ho hlast o 0 (by omega)
  rw [List.drop_zero, trueLinecol_zero] at this
  rw [make_linecol_counts_eq]
  exact this

/-- C3: the claim fails for non-empty sources without a newline: on
`"abc"` the column-count table is empty, so `get_linecol` at the
end-of-source offset raises an unguarded IndexError instead of returning
a line-column. -/
theorem C3_end_cx :
    ("abc".toList ≠ []) ∧
    mkSource ("abc".toList) "<none>" .LF = .ok ⟨"<none>", "abc".toList, .LF⟩ ∧
    (mkMetrics ("abc".toList) 128).valid_offset 3 = true ∧
    (mkMetrics ("abc".toList) 128).get_linecol 3 = .error .indexError := by
  refine ⟨by decide, rfl, by decide, rfl⟩

/-- C3 (amended): for every Source text containing at least one newline,
with `o` the LAST newline position, get_linecol at the end-of-source
offset returns the line/column of that final newline — the last recorded
line's entry in the column-count table, whose column is one past the
line's last content column because the newline itself occupies it. -/
theorem C3_end_of_source :
    ∀ (text : List Char) (o : Nat), text[o]? = some '\n' →
    (∀ j, o < j → text[j]? ≠ some '\n') →
    (make_linecol_counts text).getLast? =
      some ((trueLinecol text o).line, (trueLinecol text o).col) ∧
    (mkMetrics text 128).get_linecol text.length =
      .ok (some (trueLinecol text o)) := by
  intro text o ho hlast
  have hgl := counts_getLast text o ho hlast
  refine ⟨hgl, ?_⟩
  rw [Metrics.get_linecol,
    if_neg (by simp [Metrics.valid_offset, mkMetrics]),
    if_pos (show text.length = (mkMetrics text 128).text.length from rfl)]
  dsimp only [mkMetrics]
  rw [hgl]

/-- C3 witness: `"ab\n"` with last newline at offset 2. -/
theorem C3_end_of_source_witness :
    (("ab\n".toList)[2]? = some '\n') ∧
    ((make_linecol_counts ("ab\n".toList)).getLast? =
      some ((trueLinecol ("ab\n".toList) 2).line,
        (trueLinecol ("ab\n".toList) 2).col) ∧
     (mkMetrics ("ab\n".toList) 128).get_linecol ("ab\n".toList).length =
      .ok (some (trueLinecol ("ab\n".toList) 2))) :=
  ⟨by decide,
   C3_end_of_source ("ab\n".toList) 2 (by decide) (by
    intro j hj
    rw [List.getElem?_eq_none (by simp; omega)]
    simp)⟩

/-! ## Full lines (C4) -/

theorem firstNl_self (text : List Char) (o : Nat) (h : text[o]? = some '\n') :
    firstNlFrom text o = o := by
  unfold firstNlFrom
  rw [drop_cons_of_getElem? h, List.findIdx_cons]
  simp

/-- C4: the claim fails in two ways: full_lines can shrink a range (for
the whole-source range over `"abc\ndef\nghi"` it returns `[0,7)`, which
drops offsets 7..10) and can raise (over newline-free `"abc"` it raises
ValueError because line 1 is not a recorded line). -/
theorem C4_full_lines_cx :
    mkRange ⟨"<none>", "abc\ndef\nghi".toList, .LF⟩ 0 11 =
      .ok ⟨⟨"<none>", "abc\ndef\nghi".toList, .LF⟩, 0, 11⟩ ∧
    Range.full_lines ⟨⟨"<none>", "abc\ndef\nghi".toList, .LF⟩, 0, 11⟩ =
      .ok ⟨⟨"<none>", "abc\ndef\nghi".toList, .LF⟩, 0, 7⟩ ∧
    ¬ (11 : Nat) ≤ 7 ∧
    mkRange ⟨"<none>", "abc".toList, .LF⟩ 0 2 =
      .ok ⟨⟨"<none>", "abc".toList, .LF⟩, 0, 2⟩ ∧
    Range.full_lines ⟨⟨"<none>", "abc".toList, .LF⟩, 0, 2⟩ =
      .error .valueError := by
  refine ⟨rfl, rfl, by decide, rfl, rfl⟩

/-- C4 (amended): for every valid Range whose end location lies on a
newline-terminated line (a newline occurs at or after the end offset),
full_lines succeeds and returns a superset running from column 1 of the
begin location's line to that line-terminating newline (exclusive of the
newline itself, the code's notion of whole lines), and full_lines is
idempotent on the result. -/
theorem C4_full_lines :
    ∀ (s : Source) (b e : Nat), b ≤ e → '\n' ∈ s.content.drop e →
    (Range.full_lines ⟨s, b, e⟩ =
      .ok ⟨s, b - ((trueLinecol s.content b).col - 1), firstNlFrom s.content e⟩) ∧
    b - ((trueLinecol s.content b).col - 1) ≤ b ∧
    e ≤ firstNlFrom s.content e ∧
    trueLinecol s.content (b - ((trueLinecol s.content b).col - 1)) =
      ⟨(trueLinecol s.content b).line, 1⟩ ∧
    s.content[firstNlFrom s.content e]? = some '\n' ∧
    (trueLinecol s.content (firstNlFrom s.content e)).line =
      (trueLinecol s.content e).line ∧
    Range.full_lines ⟨s, b - ((trueLinecol s.content b).col - 1),
        firstNlFrom s.content e⟩ =
      .ok ⟨s, b - ((trueLinecol s.content b).col - 1), firstNlFrom s.content e⟩ := by
  intro s b e hbe h
  have he_lt : e < s.content.length := lt_length_of_mem_drop h
  have hb_term : '\n' ∈ s.content.drop b := mem_drop_of_le h hbe
  have hb_lt : b < s.content.length := lt_length_of_mem_drop hb_term
  obtain ⟨hnl_ge, hnl_lt, hnl_char, hnl_lc⟩ := firstNl_facts s.content e h
  have hline_nl : (trueLinecol s.content (firstNlFrom s.content e)).line =
      (trueLinecol s.content e).line := by rw [hnl_lc]
  have hcolb := trueLinecol_col_pos s.content b
  have hbw := backward_walk s.content ((trueLinecol s.content b).col - 1) b
    (Nat.le_of_lt hb_lt) (by omega)
  have hbw' : trueLinecol s.content (b - ((trueLinecol s.content b).col - 1)) =
      ⟨(trueLinecol s.content b).line, 1⟩ := by
    rw [hbw]
    congr 1
    omega
  have hstart_le : b - ((trueLinecol s.content b).col - 1) ≤ b := by omega
  have hstart_lt : b - ((trueLinecol s.content b).col - 1) < s.content.length := by
    omega
  have hlocb := mkLocation_ok s b hb_lt
  have hloce := mkLocation_ok s e he_lt
  have hstart_off := metrics_get_line_start s.content b hb_term
  have hend_off := metrics_get_line_end s.content e h
  have hmain : Range.full_lines ⟨s, b, e⟩ =
      .ok ⟨s, b - ((trueLinecol s.content b).col - 1), firstNlFrom s.content e⟩ := by
    unfold Range.full_lines
    dsimp only
    rw [hlocb, hloce]
    dsimp only [Source.metrics]
    rw [hstart_off, hend_off]
    dsimp only
    rw [mkRange, if_pos]
    refine ⟨?_, ?_, ?_⟩
    · simp only [Metrics.valid_offset, Source.metrics, mkMetrics,
        decide_eq_true_eq]
      omega
    · simp only [Metrics.valid_offset, Source.metrics, mkMetrics,
        decide_eq_true_eq]
      omega
    · omega
  refine ⟨hmain, hstart_le, hnl_ge, hbw', hnl_char, hline_nl, ?_⟩
  -- idempotence
  have hstart_term : '\n' ∈ s.content.drop (b - ((trueLinecol s.content b).col - 1)) :=
    mem_drop_of_le h (by omega)
  have hnl_term : '\n' ∈ s.content.drop (firstNlFrom s.content e) := by
    refine mem_of_getElem? (i := 0) ?_
    rw [List.getElem?_drop, Nat.add_zero]
    exact hnl_char
  have hlocs := mkLocation_ok s _ hstart_lt
  have hlocnl := mkLocation_ok s _ hnl_lt
  have hstart_off2 := metrics_get_line_start s.content
    (b - ((trueLinecol s.content b).col - 1)) hstart_term
  have hcol_start : (trueLinecol s.content
      (b - ((trueLinecol s.content b).col - 1))).col = 1 := by rw [hbw']
  rw [hcol_start] at hstart_off2
  simp only [Nat.sub_self, Nat.sub_zero] at hstart_off2
  have hend_off2 := metrics_get_line_end s.content (firstNlFrom s.content e)
    hnl_term
  rw [firstNl_self s.content (firstNlFrom s.content e) hnl_char] at hend_off2
  unfold Range.full_lines
  dsimp only
  rw [hlocs, hlocnl]
  dsimp only [Source.metrics]
  rw [hstart_off2, hend_off2]
  dsimp only
  rw [mkRange, if_pos]
  refine ⟨?_, ?_, ?_⟩
  · simp only [Metrics.valid_offset, Source.metrics, mkMetrics,
      decide_eq_true_eq]
    omega
  · simp only [Metrics.valid_offset, Source.metrics, mkMetrics,
      decide_eq_true_eq]
    omega
  · omega

/-- C4 witness: over `"ab\ncd\n"` the range `[1,4)` extends to the full
lines `[0,5)`, on which full_lines is a fixed point. -/
theorem C4_full_lines_witness :
    ((1 : Nat) ≤ 4 ∧ '\n' ∈ ("ab\ncd\n".toList).drop 4) ∧
    Range.full_lines ⟨⟨"w", "ab\ncd\n".toList, .LF⟩, 1, 4⟩ =
      .ok ⟨⟨"w", "ab\ncd\n".toList, .LF⟩, 0, 5⟩ :=
  ⟨⟨by decide, by decide⟩,
    (C4_full_lines ⟨"w", "ab\ncd\n".toList, .LF⟩ 1 4 (by decide) (by decide)).1⟩

end Sourcetools
